import Mathlib

/-!
Verification of the Blackjack game-tree search core.

The development shallowly embeds the Python sources:
  * `src/env/blackjack_env.py`   — hand evaluator (`hand_value`);
  * `src/agents/evaluation.py`   — dealer outcome distribution
    (`compute_dealer_probabilities`) and terminal evaluator (`get_stand_value`);
  * `src/agents/minimax.py`      — Strategy A, exhaustive worst-case search;
  * `src/agents/minimax_agent.py`— Strategy B, worst-case search with
    alpha-beta pruning;
  * `src/agents/expectimax_agent.py` — Strategy C, expectation-weighted search.

Python floats are modelled by exact rationals `ℚ`: every numeric operation of
the sources (sums and products of multiples of 1/13, comparisons, min/max) is
carried out symbolically with the same expression structure.  Python dicts
mapping dealer outcomes to probabilities are modelled as total functions
`DealerOutcome → ℚ` that return 0 for an absent key, exactly the source's
`get(key, 0)` convention; dict equality then coincides with function equality
because the source never stores an explicit 0.  Recursions of the source that
terminate because hand totals grow are embedded with an explicit fuel
parameter, together with theorems showing the fuel never runs out and the
result is independent of the fuel, so the fuel-22 (resp. fuel-18) instances
used below compute exactly the source recursions.
-/

/-! ### Hand evaluator (src/env/blackjack_env.py) -/

/-- `card_value` from blackjack_env.py: rank 1 (ace) counts 11, ranks 2-10
count face value, every other rank counts 10. -/
def card_value (rank : ℕ) : ℕ :=
  if rank = 1 then 11 else if 2 ≤ rank ∧ rank ≤ 10 then rank else 10

/-- The `while total > 21 and num_aces > 0` loop of `hand_value`: repeatedly
subtract 10 while the running total exceeds 21 and undemoted aces remain.
Returns the final total together with the number of conversions performed. -/
def demoteAces : ℕ → ℕ → ℕ × ℕ
  | total, 0 => (total, 0)
  | total, aces + 1 =>
    if 21 < total then
      let p := demoteAces (total - 10) aces
      (p.1, p.2 + 1)
    else (total, 0)

/-- `hand_value` from blackjack_env.py: sum every rank as 11 (ace) / face
value / 10, demote aces from 11 to 1 while busting, and report softness
(`had_aces and conversions < num_aces`). -/
def hand_value (cards : List ℕ) : ℕ × Bool :=
  let original_total := (cards.map (fun r => if r = 1 then 11 else if 2 ≤ r ∧ r ≤ 10 then r else 10)).sum
  let num_aces := (cards.filter (fun r => r = 1)).length
  let p := demoteAces original_total num_aces
  (p.1, decide (0 < num_aces) && decide (p.2 < num_aces))

/-- Minimal blackjack value of a rank (every ace counted as 1). -/
def cardMin (rank : ℕ) : ℕ := if rank = 1 then 1 else card_value rank

/-- Minimal total of a hand: every ace counted as 1. -/
def minTotal (cards : List ℕ) : ℕ := (cards.map cardMin).sum

/-- Number of aces in a hand. -/
def acesCount (cards : List ℕ) : ℕ := (cards.filter (fun r => r = 1)).length

/-- The condition under which a hand is soft: it has an ace and counting one
ace as 11 does not bust. -/
def softCond (cards : List ℕ) : Prop :=
  0 < acesCount cards ∧ minTotal cards + 10 ≤ 21

instance (cards : List ℕ) : Decidable (softCond cards) := by
  unfold softCond
  infer_instance

lemma card_value_eq_cardMin_add (r : ℕ) :
    (if r = 1 then 11 else if 2 ≤ r ∧ r ≤ 10 then r else 10)
      = cardMin r + (if r = 1 then 10 else 0) := by
  by_cases h : r = 1 <;> simp [cardMin, card_value, h]

lemma one_le_cardMin (r : ℕ) : 1 ≤ cardMin r := by
  unfold cardMin card_value
  by_cases h : r = 1
  · simp [h]
  · by_cases h2 : 2 ≤ r ∧ r ≤ 10 <;> simp [h, h2] <;> omega

lemma original_total_eq (cards : List ℕ) :
    (cards.map (fun r => if r = 1 then 11 else if 2 ≤ r ∧ r ≤ 10 then r else 10)).sum
      = minTotal cards + 10 * acesCount cards := by
  induction cards with
  | nil => simp [minTotal, acesCount]
  | cons r rs ih =>
    by_cases h : r = 1 <;>
      simp [minTotal, acesCount, List.filter_cons, h, ih, cardMin, card_value] at * <;>
      omega

lemma acesCount_le_minTotal (cards : List ℕ) : acesCount cards ≤ minTotal cards := by
  induction cards with
  | nil => simp [minTotal, acesCount]
  | cons r rs ih =>
    by_cases h : r = 1 <;>
      simp [minTotal, acesCount, List.filter_cons, h, cardMin, card_value] at * <;>
      omega

lemma demoteAces_char (a base : ℕ) (h : a ≤ base) :
    demoteAces (base + 10 * a) a
      = if 0 < a ∧ base + 10 ≤ 21 then (base + 10, a - 1) else (base, a) := by
  induction a with
  | zero => simp [demoteAces]
  | succ k ih =>
    unfold demoteAces
    by_cases hb : 21 < base + 10 * (k + 1)
    · have hrec : base + 10 * (k + 1) - 10 = base + 10 * k := by omega
      rw [if_pos hb, hrec, ih (by omega)]
      by_cases hk : 0 < k ∧ base + 10 ≤ 21
      · rw [if_pos hk]
        simp only [if_pos (And.intro (Nat.succ_pos k) hk.2)]
        simp
        omega
      · rw [if_neg hk]
        by_cases hc : base + 10 ≤ 21
        · rcases Nat.eq_zero_or_pos k with hk0 | hkpos
          · subst hk0
            exact absurd hc (by omega)
          · exact absurd ⟨hkpos, hc⟩ hk
        · simp [hc]
    · rw [if_neg hb]
      have hk0 : k = 0 := by omega
      subst hk0
      have : base + 10 ≤ 21 := by omega
      simp [this]

/-- Characterization of `hand_value`: the total is the minimal total plus 10
exactly when the hand is soft, and the softness flag is `softCond`. -/
theorem hand_value_char (cards : List ℕ) :
    hand_value cards
      = (if softCond cards then minTotal cards + 10 else minTotal cards,
         decide (softCond cards)) := by
  have hle : acesCount cards ≤ minTotal cards := acesCount_le_minTotal cards
  have hch := demoteAces_char (acesCount cards) (minTotal cards) hle
  unfold hand_value
  rw [original_total_eq]
  show ((demoteAces (minTotal cards + 10 * acesCount cards) (acesCount cards)).1,
        decide (0 < acesCount cards)
          && decide ((demoteAces (minTotal cards + 10 * acesCount cards)
                        (acesCount cards)).2 < acesCount cards)) = _
  rw [hch]
  unfold softCond
  by_cases hs : 0 < acesCount cards ∧ minTotal cards + 10 ≤ 21
  · rw [if_pos hs, if_pos hs]
    have h2 : acesCount cards - 1 < acesCount cards := Nat.sub_lt hs.1 one_pos
    simp [hs.1, h2, hs]
  · rw [if_neg hs, if_neg hs]
    simp [hs]
    intro h1
    rcases Nat.lt_or_ge 11 (minTotal cards) with h | h
    · exact h
    · exact absurd ⟨h1, by omega⟩ hs

lemma total_eq_cases (cards : List ℕ) :
    (hand_value cards).1 = minTotal cards ∨
      (hand_value cards).1 = minTotal cards + 10 := by
  rw [hand_value_char]
  by_cases hs : softCond cards <;> simp [hs]

lemma minTotal_le_total (cards : List ℕ) : minTotal cards ≤ (hand_value cards).1 := by
  rcases total_eq_cases cards with h | h <;> omega

lemma minTotal_append (p : List ℕ) (r : ℕ) :
    minTotal (p ++ [r]) = minTotal p + cardMin r := by
  simp [minTotal]

lemma acesCount_append (p : List ℕ) (r : ℕ) :
    acesCount (p ++ [r]) = acesCount p + (if r = 1 then 1 else 0) := by
  by_cases h : r = 1 <;> simp [acesCount, List.filter_append, h]

lemma minTotal_perm {p q : List ℕ} (h : List.Perm p q) : minTotal p = minTotal q :=
  List.Perm.sum_eq (List.Perm.map cardMin h)

lemma acesCount_perm {p q : List ℕ} (h : List.Perm p q) : acesCount p = acesCount q :=
  List.Perm.length_eq (List.Perm.filter _ h)

lemma hand_value_perm {p q : List ℕ} (h : List.Perm p q) :
    hand_value p = hand_value q := by
  rw [hand_value_char, hand_value_char]
  have h1 := minTotal_perm h
  have h2 := acesCount_perm h
  simp [softCond, h1, h2]

/-! ### Dealer outcome distribution (src/agents/evaluation.py) -/

/-- A final dealer outcome: a standing score (17-21) or a bust. -/
inductive DealerOutcome where
  | score (n : ℕ) : DealerOutcome
  | bust : DealerOutcome
deriving DecidableEq

/-- A Python dict mapping outcomes to probabilities, as its lookup function
with default 0 (`dict.get(key, 0)`). -/
abbrev ProbDist := DealerOutcome → ℚ

/-- The 13 card ranks enumerated by `range(1, 14)` in the sources. -/
def ranks13 : List ℕ := List.range' 1 13

mutual
/-- Fuel-indexed embedding of `compute_dealer_probabilities`: bust and stand
base cases, otherwise the 1/13-weighted accumulation of the distributions of
the 13 one-card extensions.  `none` means the fuel ran out (never happens for
sufficient fuel, see `dealerProbsF_isSome`). -/
def dealerProbsF : ℕ → List ℕ → Option ProbDist
  | 0, _ => none
  | fuel + 1, dealer_hand =>
    let total := (hand_value dealer_hand).1
    if 21 < total then some (fun o => if o = DealerOutcome.bust then 1 else 0)
    else if 17 ≤ total then some (fun o => if o = DealerOutcome.score total then 1 else 0)
    else
      match dealerBranchesF fuel dealer_hand ranks13 with
      | none => none
      | some ds => some (fun o => (ds.map (fun d => d o * (1 / 13))).sum)
  termination_by fuel _ => (fuel, 0, 0)

/-- The `for new_rank in range(1, 14)` loop of `compute_dealer_probabilities`:
the list of recursively computed branch distributions. -/
def dealerBranchesF : ℕ → List ℕ → List ℕ → Option (List ProbDist)
  | _, _, [] => some []
  | fuel, dealer_hand, r :: rs =>
    match dealerProbsF fuel (dealer_hand ++ [r]), dealerBranchesF fuel dealer_hand rs with
    | some d, some ds => some (d :: ds)
    | _, _ => none
  termination_by fuel _ rs => (fuel, 1, rs.length)
end

/-- Sufficient fuel for the dealer recursion from a given hand. -/
def dealerFuelOk (fuel : ℕ) (hand : List ℕ) : Prop := 17 - minTotal hand < fuel

instance (fuel : ℕ) (hand : List ℕ) : Decidable (dealerFuelOk fuel hand) := by
  unfold dealerFuelOk
  infer_instance

lemma dealerFuelOk_branch {fuel : ℕ} {hand : List ℕ} (r : ℕ)
    (h : dealerFuelOk (fuel + 1) hand) (hlt : (hand_value hand).1 < 17) :
    dealerFuelOk fuel (hand ++ [r]) := by
  have h1 := minTotal_le_total hand
  have h2 := one_le_cardMin r
  have h3 := minTotal_append hand r
  unfold dealerFuelOk at *
  omega

lemma dealerBranchesF_some {fuel : ℕ} {hand : List ℕ} (rs : List ℕ)
    (h : ∀ r ∈ rs, (dealerProbsF fuel (hand ++ [r])).isSome) :
    dealerBranchesF fuel hand rs
      = some (rs.map (fun r => (dealerProbsF fuel (hand ++ [r])).getD (fun _ => 0))) := by
  induction rs with
  | nil => simp [dealerBranchesF]
  | cons r rs ih =>
    have hr := h r (List.mem_cons_self r rs)
    obtain ⟨d, hd⟩ := Option.isSome_iff_exists.mp hr
    have hrest := ih (fun x hx => h x (List.mem_cons_of_mem r hx))
    unfold dealerBranchesF
    rw [hd, hrest]
    simp [hd]

lemma dealerProbsF_isSome {fuel : ℕ} {hand : List ℕ} (h : dealerFuelOk fuel hand) :
    (dealerProbsF fuel hand).isSome := by
  induction fuel using Nat.strong_induction_on generalizing hand with
  | _ fuel ih =>
    match fuel with
    | 0 =>
      unfold dealerFuelOk at h
      omega
    | fuel + 1 =>
      unfold dealerProbsF
      by_cases h21 : 21 < (hand_value hand).1
      · simp [h21]
      · by_cases h17 : 17 ≤ (hand_value hand).1
        · simp [h21, h17]
        · have hlt : (hand_value hand).1 < 17 := by omega
          have hbr : ∀ r ∈ ranks13, (dealerProbsF fuel (hand ++ [r])).isSome := by
            intro r _
            exact ih fuel (Nat.lt_succ_self fuel) (dealerFuelOk_branch r h hlt)
          rw [dealerBranchesF_some ranks13 hbr]
          simp [h21, h17]

lemma dealerBranchesF_congr {f g : ℕ} {hand : List ℕ} (rs : List ℕ)
    (h : ∀ r ∈ rs, dealerProbsF f (hand ++ [r]) = dealerProbsF g (hand ++ [r])) :
    dealerBranchesF f hand rs = dealerBranchesF g hand rs := by
  induction rs with
  | nil => simp [dealerBranchesF]
  | cons r rs ih =>
    unfold dealerBranchesF
    rw [h r (List.mem_cons_self r rs), ih (fun x hx => h x (List.mem_cons_of_mem r hx))]

lemma dealerProbsF_stable {fuel fuel' : ℕ} {hand : List ℕ} (hle : fuel ≤ fuel')
    (h : dealerFuelOk fuel hand) :
    dealerProbsF fuel hand = dealerProbsF fuel' hand := by
  induction fuel using Nat.strong_induction_on generalizing hand fuel' with
  | _ fuel ih =>
    match fuel, fuel' with
    | 0, _ =>
      unfold dealerFuelOk at h
      omega
    | fuel + 1, 0 => omega
    | fuel + 1, fuel' + 1 =>
      unfold dealerProbsF
      by_cases h21 : 21 < (hand_value hand).1
      · simp [h21]
      · by_cases h17 : 17 ≤ (hand_value hand).1
        · simp [h21, h17]
        · have hlt : (hand_value hand).1 < 17 := by omega
          have hcongr : dealerBranchesF fuel hand ranks13 = dealerBranchesF fuel' hand ranks13 := by
            apply dealerBranchesF_congr
            intro r _
            exact ih fuel (Nat.lt_succ_self fuel) (by omega) (dealerFuelOk_branch r h hlt)
          rw [hcongr]

/-- `compute_dealer_probabilities` from evaluation.py, at its canonical fuel:
fuel 18 is sufficient for every hand since every card has minimal value 1. -/
def compute_dealer_probabilities (dealer_hand : List ℕ) : ProbDist :=
  (dealerProbsF 18 dealer_hand).getD (fun _ => 0)

lemma dealerFuelOk_18 (hand : List ℕ) : dealerFuelOk 18 hand := by
  unfold dealerFuelOk
  omega

lemma compute_dealer_probabilities_eqF {fuel : ℕ} {hand : List ℕ}
    (h : dealerFuelOk fuel hand) :
    dealerProbsF fuel hand = some (compute_dealer_probabilities hand) := by
  unfold compute_dealer_probabilities
  rcases Nat.le_total fuel 18 with hle | hle
  · rw [dealerProbsF_stable hle h]
    obtain ⟨d, hd⟩ := Option.isSome_iff_exists.mp (dealerProbsF_isSome (dealerFuelOk_18 hand))
    simp [hd]
  · rw [← dealerProbsF_stable hle (dealerFuelOk_18 hand)]
    obtain ⟨d, hd⟩ := Option.isSome_iff_exists.mp (dealerProbsF_isSome (dealerFuelOk_18 hand))
    simp [hd]

lemma dealerProbsF_succ (fuel : ℕ) (hand : List ℕ) :
    dealerProbsF (fuel + 1) hand
      = (let total := (hand_value hand).1
         if 21 < total then some (fun o => if o = DealerOutcome.bust then 1 else 0)
         else if 17 ≤ total then
           some (fun o => if o = DealerOutcome.score total then 1 else 0)
         else
           match dealerBranchesF fuel hand ranks13 with
           | none => none
           | some ds => some (fun o => (ds.map (fun d => d o * (1 / 13))).sum)) := by
  rw [dealerProbsF]

lemma sum_Icc_1_13_eq_ranks13 (g : ℕ → ℚ) :
    ∑ r ∈ Finset.Icc 1 13, g r = (ranks13.map g).sum := by
  have h : (Finset.Icc 1 13 : Finset ℕ) = ranks13.toFinset := by decide
  have hnodup : ranks13.Nodup := by decide
  rw [h, List.sum_toFinset g hnodup]

/-- The canonical recursion satisfied by `compute_dealer_probabilities`:
bust hands give the unit bust distribution, standing hands the unit
distribution on their total, and drawing hands the 1/13-weighted merge of the
13 one-card extensions. -/
theorem compute_dealer_probabilities_recursion (hand : List ℕ) :
    compute_dealer_probabilities hand
      = if 21 < (hand_value hand).1 then
          (fun o => if o = DealerOutcome.bust then 1 else 0)
        else if 17 ≤ (hand_value hand).1 then
          (fun o => if o = DealerOutcome.score (hand_value hand).1 then 1 else 0)
        else
          fun o => ∑ r ∈ Finset.Icc 1 13,
            (1 / 13) * compute_dealer_probabilities (hand ++ [r]) o := by
  have h18 : dealerProbsF 18 hand = some (compute_dealer_probabilities hand) :=
    compute_dealer_probabilities_eqF (dealerFuelOk_18 hand)
  have h18' : dealerProbsF (17 + 1) hand = some (compute_dealer_probabilities hand) := h18
  rw [dealerProbsF_succ] at h18'
  simp only at h18'
  by_cases h21 : 21 < (hand_value hand).1
  · rw [if_pos h21] at h18' ⊢
    exact (Option.some_injective _ h18').symm
  · rw [if_neg h21] at h18' ⊢
    by_cases h17 : 17 ≤ (hand_value hand).1
    · rw [if_pos h17] at h18' ⊢
      exact (Option.some_injective _ h18').symm
    · rw [if_neg h17] at h18' ⊢
      have hlt : (hand_value hand).1 < 17 := by omega
      have hbr : ∀ r ∈ ranks13, (dealerProbsF 17 (hand ++ [r])).isSome := by
        intro r _
        exact dealerProbsF_isSome (dealerFuelOk_branch r (dealerFuelOk_18 hand) hlt)
      rw [dealerBranchesF_some ranks13 hbr] at h18'
      have hc : ∀ r ∈ ranks13,
          (dealerProbsF 17 (hand ++ [r])).getD (fun _ => 0)
            = compute_dealer_probabilities (hand ++ [r]) := by
        intro r _
        rw [compute_dealer_probabilities_eqF
          (dealerFuelOk_branch r (dealerFuelOk_18 hand) hlt)]
        rfl
      have heq := Option.some_injective _ h18'
      rw [← heq]
      funext o
      rw [sum_Icc_1_13_eq_ranks13, List.map_map]
      congr 1
      apply List.map_congr_left
      intro r hr
      simp only [Function.comp]
      rw [hc r hr]
      ring

lemma dealerBranchesF_mem {fuel : ℕ} {hand : List ℕ} :
    ∀ {rs : List ℕ} {dds : List ProbDist},
      dealerBranchesF fuel hand rs = some dds → ∀ d ∈ dds,
        ∃ r ∈ rs, dealerProbsF fuel (hand ++ [r]) = some d := by
  intro rs
  induction rs with
  | nil =>
    intro dds h d hd
    unfold dealerBranchesF at h
    simp at h
    subst h
    simp at hd
  | cons r rs ih =>
    intro dds h d hd
    unfold dealerBranchesF at h
    rcases h1 : dealerProbsF fuel (hand ++ [r]) with _ | d1 <;> rw [h1] at h
    · simp at h
    · rcases h2 : dealerBranchesF fuel hand rs with _ | ds2 <;> rw [h2] at h
      · simp at h
      · simp at h
        subst h
        rcases List.mem_cons.mp hd with hd1 | hd2
        · exact ⟨r, List.mem_cons_self r rs, by rw [h1, hd1]⟩
        · obtain ⟨r', hr', hd'⟩ := ih h2 d hd2
          exact ⟨r', List.mem_cons_of_mem r hr', hd'⟩

lemma dealerBranchesF_rank_mem {fuel : ℕ} {hand : List ℕ} :
    ∀ {rs : List ℕ} {dds : List ProbDist},
      dealerBranchesF fuel hand rs = some dds → ∀ r ∈ rs,
        ∃ d ∈ dds, dealerProbsF fuel (hand ++ [r]) = some d := by
  intro rs
  induction rs with
  | nil =>
    intro dds h r hr
    simp at hr
  | cons r0 rs ih =>
    intro dds h r hr
    unfold dealerBranchesF at h
    rcases h1 : dealerProbsF fuel (hand ++ [r0]) with _ | d1 <;> rw [h1] at h
    · simp at h
    · rcases h2 : dealerBranchesF fuel hand rs with _ | ds2 <;> rw [h2] at h
      · simp at h
      · simp at h
        subst h
        rcases List.mem_cons.mp hr with hr1 | hr2
        · subst hr1
          exact ⟨d1, List.mem_cons_self d1 ds2, h1⟩
        · obtain ⟨d', hd', h'⟩ := ih h2 r hr2
          exact ⟨d', List.mem_cons_of_mem d1 hd', h'⟩

lemma dealerBranchesF_length {fuel : ℕ} {hand : List ℕ} :
    ∀ {rs : List ℕ} {dds : List ProbDist},
      dealerBranchesF fuel hand rs = some dds → dds.length = rs.length := by
  intro rs
  induction rs with
  | nil =>
    intro dds h
    unfold dealerBranchesF at h
    simp at h
    subst h
    rfl
  | cons r rs ih =>
    intro dds h
    unfold dealerBranchesF at h
    rcases h1 : dealerProbsF fuel (hand ++ [r]) with _ | d1 <;> rw [h1] at h
    · simp at h
    · rcases h2 : dealerBranchesF fuel hand rs with _ | ds2 <;> rw [h2] at h
      · simp at h
      · simp at h
        subst h
        simp [ih h2]

lemma dealerProbsF_nonneg {fuel : ℕ} {hand : List ℕ} {d : ProbDist}
    (h : dealerProbsF fuel hand = some d) (o : DealerOutcome) : 0 ≤ d o := by
  induction fuel using Nat.strong_induction_on generalizing hand d o with
  | _ fuel ih =>
    match fuel with
    | 0 => simp [dealerProbsF] at h
    | fuel + 1 =>
      rw [dealerProbsF_succ] at h
      simp only at h
      by_cases h21 : 21 < (hand_value hand).1
      · rw [if_pos h21] at h
        have := Option.some_injective _ h
        subst this
        by_cases hb : o = DealerOutcome.bust <;> simp [hb]
      · rw [if_neg h21] at h
        by_cases h17 : 17 ≤ (hand_value hand).1
        · rw [if_pos h17] at h
          have := Option.some_injective _ h
          subst this
          by_cases hb : o = DealerOutcome.score (hand_value hand).1 <;> simp [hb]
        · rw [if_neg h17] at h
          rcases hds : dealerBranchesF fuel hand ranks13 with _ | dds <;> rw [hds] at h
          · simp at h
          · have := Option.some_injective _ h
            subst this
            apply List.sum_nonneg
            intro x hx
            obtain ⟨d', hd', hx'⟩ := List.mem_map.mp hx
            obtain ⟨r, _, hr⟩ := dealerBranchesF_mem hds d' hd'
            rw [← hx']
            have hpos : (0:ℚ) ≤ d' o := ih fuel (Nat.lt_succ_self fuel) hr o
            positivity

/-- A linear functional on distributions: coefficient `cb` on the bust
outcome and `cs s` on each standing score `s ∈ [17, 21]`. -/
def linComb (cb : ℚ) (cs : ℕ → ℚ) (d : ProbDist) : ℚ :=
  d DealerOutcome.bust * cb + ∑ s ∈ Finset.Icc 17 21, d (DealerOutcome.score s) * cs s

lemma linComb_branch (cb : ℚ) (cs : ℕ → ℚ) (ds : List ProbDist) :
    linComb cb cs (fun o => (ds.map (fun d => d o * (1 / 13))).sum)
      = (ds.map (fun d => linComb cb cs d * (1 / 13))).sum := by
  induction ds with
  | nil => simp [linComb]
  | cons d ds ih =>
    have expand : (fun o => (((d :: ds).map (fun d' => d' o * (1 / 13)))).sum)
        = fun o => d o * (1 / 13) + ((ds.map (fun d' => d' o * (1 / 13)))).sum := by
      funext o
      simp
    rw [expand]
    unfold linComb at ih ⊢
    simp only [List.map_cons, List.sum_cons]
    have hsplit : ∑ s ∈ Finset.Icc 17 21,
        (d (DealerOutcome.score s) * (1 / 13)
          + (ds.map (fun d' => d' (DealerOutcome.score s) * (1 / 13))).sum) * cs s
        = (∑ s ∈ Finset.Icc 17 21, d (DealerOutcome.score s) * (1 / 13) * cs s)
          + ∑ s ∈ Finset.Icc 17 21,
              (ds.map (fun d' => d' (DealerOutcome.score s) * (1 / 13))).sum * cs s := by
      rw [← Finset.sum_add_distrib]
      exact Finset.sum_congr rfl (fun s _ => by ring)
    rw [hsplit]
    have hswap : ∑ s ∈ Finset.Icc 17 21, d (DealerOutcome.score s) * (1 / 13) * cs s
        = (∑ s ∈ Finset.Icc 17 21, d (DealerOutcome.score s) * cs s) * (1 / 13) := by
      rw [Finset.sum_mul]
      exact Finset.sum_congr rfl (fun s _ => by ring)
    rw [hswap]
    have hrest : (fun o => ((ds.map (fun d' => d' o * (1 / 13)))).sum) DealerOutcome.bust * cb
          + ∑ s ∈ Finset.Icc 17 21,
              (fun o => ((ds.map (fun d' => d' o * (1 / 13)))).sum) (DealerOutcome.score s) * cs s
        = (ds.map (fun d' => (d' DealerOutcome.bust * cb
            + ∑ s ∈ Finset.Icc 17 21, d' (DealerOutcome.score s) * cs s) * (1 / 13))).sum := ih
    simp only at hrest
    rw [← hrest]
    ring

lemma list_sum_map_const {α : Type} {l : List α} {f : α → ℚ} {c : ℚ}
    (h : ∀ x ∈ l, f x = c) : (l.map f).sum = l.length * c := by
  induction l with
  | nil => simp
  | cons x xs ih =>
    simp only [List.map_cons, List.sum_cons, List.length_cons]
    rw [h x (List.mem_cons_self x xs), ih (fun y hy => h y (List.mem_cons_of_mem x hy))]
    push_cast
    ring

/-- Total mass of a dealer distribution over its possible outcomes. -/
def totalMass (d : ProbDist) : ℚ :=
  d DealerOutcome.bust + ∑ s ∈ Finset.Icc 17 21, d (DealerOutcome.score s)

lemma totalMass_eq_linComb (d : ProbDist) : totalMass d = linComb 1 (fun _ => 1) d := by
  simp [totalMass, linComb]

lemma dealerProbsF_totalMass {fuel : ℕ} {hand : List ℕ} {d : ProbDist}
    (h : dealerProbsF fuel hand = some d) : totalMass d = 1 := by
  induction fuel using Nat.strong_induction_on generalizing hand d with
  | _ fuel ih =>
    match fuel with
    | 0 => simp [dealerProbsF] at h
    | fuel + 1 =>
      rw [dealerProbsF_succ] at h
      simp only at h
      by_cases h21 : 21 < (hand_value hand).1
      · rw [if_pos h21] at h
        have := Option.some_injective _ h
        subst this
        simp [totalMass]
      · rw [if_neg h21] at h
        by_cases h17 : 17 ≤ (hand_value hand).1
        · rw [if_pos h17] at h
          have := Option.some_injective _ h
          subst this
          unfold totalMass
          simp only [DealerOutcome.score.injEq]
          have hmem : (hand_value hand).1 ∈ Finset.Icc 17 21 := by
            simp
            omega
          rw [Finset.sum_ite_eq' (Finset.Icc 17 21) ((hand_value hand).1) (fun _ => (1:ℚ))]
          simp [hmem]
        · rw [if_neg h17] at h
          rcases hds : dealerBranchesF fuel hand ranks13 with _ | dds <;> rw [hds] at h
          · simp at h
          · have := Option.some_injective _ h
            subst this
            rw [totalMass_eq_linComb, linComb_branch]
            have hlen : dds.length = 13 := dealerBranchesF_length hds
            have hconst : ∀ d' ∈ dds, linComb 1 (fun _ => 1) d' * (1 / 13) = 1 / 13 := by
              intro d' hd'
              obtain ⟨r, _, hr⟩ := dealerBranchesF_mem hds d' hd'
              rw [← totalMass_eq_linComb, ih fuel (Nat.lt_succ_self fuel) hr]
              ring
            rw [list_sum_map_const hconst, hlen]
            norm_num

/-- Every standing score that `compute_dealer_probabilities` can assign
positive probability lies in [17, 21] (so together with bust these are the
only keys the source dict can hold). -/
lemma dealerProbsF_support {fuel : ℕ} {hand : List ℕ} {d : ProbDist}
    (h : dealerProbsF fuel hand = some d) {n : ℕ} (hn : d (DealerOutcome.score n) ≠ 0) :
    17 ≤ n ∧ n ≤ 21 := by
  induction fuel using Nat.strong_induction_on generalizing hand d with
  | _ fuel ih =>
    match fuel with
    | 0 => simp [dealerProbsF] at h
    | fuel + 1 =>
      rw [dealerProbsF_succ] at h
      simp only at h
      by_cases h21 : 21 < (hand_value hand).1
      · rw [if_pos h21] at h
        have := Option.some_injective _ h
        subst this
        simp at hn
      · rw [if_neg h21] at h
        by_cases h17 : 17 ≤ (hand_value hand).1
        · rw [if_pos h17] at h
          have := Option.some_injective _ h
          subst this
          simp only [DealerOutcome.score.injEq] at hn
          by_cases he : n = (hand_value hand).1
          · omega
          · simp [he] at hn
        · rw [if_neg h17] at h
          rcases hds : dealerBranchesF fuel hand ranks13 with _ | dds <;> rw [hds] at h
          · simp at h
          · have := Option.some_injective _ h
            subst this
            simp only at hn
            have hex : ∃ x ∈ dds.map (fun d' => d' (DealerOutcome.score n) * (1 / 13)), x ≠ 0 := by
              by_contra hall
              push_neg at hall
              exact hn (List.sum_eq_zero hall)
            obtain ⟨x, hx, hx0⟩ := hex
            obtain ⟨d', hd', hxd⟩ := List.mem_map.mp hx
            obtain ⟨r, _, hr⟩ := dealerBranchesF_mem hds d' hd'
            apply ih fuel (Nat.lt_succ_self fuel) hr
            intro hzero
            rw [← hxd, hzero] at hx0
            simp at hx0

lemma dealerBranchesF_congr₂ {f g : ℕ} {p q : List ℕ} (rs : List ℕ)
    (h : ∀ r ∈ rs, dealerProbsF f (p ++ [r]) = dealerProbsF g (q ++ [r])) :
    dealerBranchesF f p rs = dealerBranchesF g q rs := by
  induction rs with
  | nil => simp [dealerBranchesF]
  | cons r rs ih =>
    unfold dealerBranchesF
    rw [h r (List.mem_cons_self r rs), ih (fun x hx => h x (List.mem_cons_of_mem r hx))]

lemma dealerProbsF_perm {fuel : ℕ} {p q : List ℕ} (hperm : List.Perm p q) :
    dealerProbsF fuel p = dealerProbsF fuel q := by
  induction fuel using Nat.strong_induction_on generalizing p q with
  | _ fuel ih =>
    match fuel with
    | 0 => simp [dealerProbsF]
    | fuel + 1 =>
      rw [dealerProbsF_succ, dealerProbsF_succ]
      simp only
      rw [hand_value_perm hperm]
      have hbr : dealerBranchesF fuel p ranks13 = dealerBranchesF fuel q ranks13 :=
        dealerBranchesF_congr₂ ranks13
          (fun r _ => ih fuel (Nat.lt_succ_self fuel) (List.Perm.append_right [r] hperm))
      rw [hbr]

lemma total_le_of_minTotal_le {p : List ℕ} (h : minTotal p ≤ 21) :
    (hand_value p).1 ≤ 21 := by
  rw [hand_value_char]
  by_cases hs : softCond p
  · simp only [if_pos hs]
    exact hs.2
  · simp only [if_neg hs]
    exact h

/-- Mass assigned to the standing scores 17-21. -/
def scoresMass (d : ProbDist) : ℚ := ∑ s ∈ Finset.Icc 17 21, d (DealerOutcome.score s)

lemma scoresMass_eq_linComb (d : ProbDist) : scoresMass d = linComb 0 (fun _ => 1) d := by
  simp [scoresMass, linComb]

lemma scoresMass_nonneg {fuel : ℕ} {hand : List ℕ} {d : ProbDist}
    (h : dealerProbsF fuel hand = some d) : 0 ≤ scoresMass d := by
  unfold scoresMass
  exact Finset.sum_nonneg (fun s _ => dealerProbsF_nonneg h _)

lemma list_sum_pos_of_mem {l : List ℚ} (hall : ∀ x ∈ l, 0 ≤ x) {x : ℚ}
    (hx : x ∈ l) (hpos : 0 < x) : 0 < l.sum := by
  induction l with
  | nil => simp at hx
  | cons y ys ih =>
    simp only [List.sum_cons]
    rcases List.mem_cons.mp hx with h1 | h2
    · subst h1
      have : (0:ℚ) ≤ ys.sum :=
        List.sum_nonneg (fun z hz => hall z (List.mem_cons_of_mem _ hz))
      linarith
    · have hy : (0:ℚ) ≤ y := hall y (List.mem_cons_self y ys)
      have : (0:ℚ) < ys.sum :=
        ih (fun z hz => hall z (List.mem_cons_of_mem _ hz)) h2
      linarith

/-- From any dealer hand that has not busted, the dealer finishes on a
standing score in [17, 21] with strictly positive probability. -/
lemma dealerProbsF_scoresMass_pos {fuel : ℕ} {hand : List ℕ} {d : ProbDist}
    (h : dealerProbsF fuel hand = some d) (hle : (hand_value hand).1 ≤ 21) :
    0 < scoresMass d := by
  induction fuel using Nat.strong_induction_on generalizing hand d with
  | _ fuel ih =>
    match fuel with
    | 0 => simp [dealerProbsF] at h
    | fuel + 1 =>
      rw [dealerProbsF_succ] at h
      simp only at h
      by_cases h21 : 21 < (hand_value hand).1
      · omega
      · rw [if_neg h21] at h
        by_cases h17 : 17 ≤ (hand_value hand).1
        · rw [if_pos h17] at h
          have := Option.some_injective _ h
          subst this
          unfold scoresMass
          simp only [DealerOutcome.score.injEq]
          have hmem : (hand_value hand).1 ∈ Finset.Icc 17 21 := by
            simp
            omega
          rw [Finset.sum_ite_eq' (Finset.Icc 17 21) ((hand_value hand).1) (fun _ => (1:ℚ))]
          simp [hmem]
        · rw [if_neg h17] at h
          rcases hds : dealerBranchesF fuel hand ranks13 with _ | dds <;> rw [hds] at h
          · simp at h
          · have := Option.some_injective _ h
            subst this
            rw [scoresMass_eq_linComb, linComb_branch]
            have hmt : minTotal hand ≤ 16 := by
              have := minTotal_le_total hand
              omega
            set rc : ℕ := if minTotal hand ≤ 11 then 13 else 2 with hrc
            have hrcmem : rc ∈ ranks13 := by
              rw [hrc]
              by_cases hc : minTotal hand ≤ 11 <;> simp [hc] <;> decide
            have hnew : (hand_value (hand ++ [rc])).1 ≤ 21 := by
              apply total_le_of_minTotal_le
              rw [minTotal_append, hrc]
              by_cases hc : minTotal hand ≤ 11 <;>
                simp [hc, cardMin, card_value] <;> omega
            obtain ⟨drc, hdrc, hrceq⟩ := dealerBranchesF_rank_mem hds rc hrcmem
            have hpos : 0 < linComb 0 (fun _ => 1) drc * (1 / 13) := by
              rw [← scoresMass_eq_linComb]
              have := ih fuel (Nat.lt_succ_self fuel) hrceq hnew
              positivity
            apply list_sum_pos_of_mem _ (List.mem_map_of_mem _ hdrc) hpos
            intro x hx
            obtain ⟨d', hd', hxd⟩ := List.mem_map.mp hx
            obtain ⟨r, _, hr⟩ := dealerBranchesF_mem hds d' hd'
            rw [← hxd, ← scoresMass_eq_linComb]
            have := scoresMass_nonneg hr
            positivity

/-! ### Terminal evaluator `get_stand_value` (src/agents/evaluation.py)

The source iterates over the items of the dealer-probability dict.  By
`dealerProbsF_support` the only keys that can carry nonzero probability are
`bust` and the standing scores 17-21, so the iteration is modelled as the
bust term plus the sum over `Finset.Icc 17 21`; absent keys contribute the
dict-lookup default 0 and do not change the sum. -/

/-- `get_stand_value` from evaluation.py: -1 for a busted player, otherwise
the expectation of +1 per winning dealer outcome (bust, or score below the
player total), -1 per losing outcome, 0 per push. -/
def get_stand_value (player_hand dealer_hand : List ℕ) : ℚ :=
  let player_total := (hand_value player_hand).1
  if 21 < player_total then -1
  else
    let dealer_final_probs := compute_dealer_probabilities dealer_hand
    dealer_final_probs DealerOutcome.bust * 1
      + ∑ s ∈ Finset.Icc 17 21,
          (if player_total > s then dealer_final_probs (DealerOutcome.score s) * 1
           else if player_total < s then dealer_final_probs (DealerOutcome.score s) * (-1)
           else dealer_final_probs (DealerOutcome.score s) * 0)

lemma compute_dealer_probabilities_nonneg (hand : List ℕ) (o : DealerOutcome) :
    0 ≤ compute_dealer_probabilities hand o :=
  dealerProbsF_nonneg (compute_dealer_probabilities_eqF (dealerFuelOk_18 hand)) o

lemma compute_dealer_probabilities_totalMass (hand : List ℕ) :
    totalMass (compute_dealer_probabilities hand) = 1 :=
  dealerProbsF_totalMass (compute_dealer_probabilities_eqF (dealerFuelOk_18 hand))

lemma compute_dealer_probabilities_scoresMass_pos {hand : List ℕ}
    (h : (hand_value hand).1 ≤ 21) :
    0 < scoresMass (compute_dealer_probabilities hand) :=
  dealerProbsF_scoresMass_pos (compute_dealer_probabilities_eqF (dealerFuelOk_18 hand)) h

lemma get_stand_value_bust {player_hand : List ℕ} (dealer_hand : List ℕ)
    (h : 21 < (hand_value player_hand).1) :
    get_stand_value player_hand dealer_hand = -1 := by
  unfold get_stand_value
  simp [h]

lemma get_stand_value_le_one (player_hand dealer_hand : List ℕ) :
    get_stand_value player_hand dealer_hand ≤ 1 := by
  unfold get_stand_value
  by_cases h : 21 < (hand_value player_hand).1
  · simp [h]
  · rw [if_neg h]
    simp only
    have hmass := compute_dealer_probabilities_totalMass dealer_hand
    unfold totalMass at hmass
    have hsum : ∑ s ∈ Finset.Icc 17 21,
        (if (hand_value player_hand).1 > s then
            compute_dealer_probabilities dealer_hand (DealerOutcome.score s) * 1
         else if (hand_value player_hand).1 < s then
            compute_dealer_probabilities dealer_hand (DealerOutcome.score s) * (-1)
         else compute_dealer_probabilities dealer_hand (DealerOutcome.score s) * 0)
        ≤ ∑ s ∈ Finset.Icc 17 21,
            compute_dealer_probabilities dealer_hand (DealerOutcome.score s) := by
      apply Finset.sum_le_sum
      intro s _
      have hn := compute_dealer_probabilities_nonneg dealer_hand (DealerOutcome.score s)
      by_cases h1 : (hand_value player_hand).1 > s
      · simp [h1]
      · rw [if_neg h1]
        by_cases h2 : (hand_value player_hand).1 < s
        · simp [h2]
          linarith
        · simp [h2]
          linarith
    linarith

lemma neg_one_le_get_stand_value (player_hand dealer_hand : List ℕ) :
    -1 ≤ get_stand_value player_hand dealer_hand := by
  unfold get_stand_value
  by_cases h : 21 < (hand_value player_hand).1
  · simp [h]
  · rw [if_neg h]
    simp only
    have hmass := compute_dealer_probabilities_totalMass dealer_hand
    unfold totalMass at hmass
    have hb := compute_dealer_probabilities_nonneg dealer_hand DealerOutcome.bust
    have hsum : ∑ s ∈ Finset.Icc 17 21,
        (-(compute_dealer_probabilities dealer_hand (DealerOutcome.score s)))
        ≤ ∑ s ∈ Finset.Icc 17 21,
          (if (hand_value player_hand).1 > s then
              compute_dealer_probabilities dealer_hand (DealerOutcome.score s) * 1
           else if (hand_value player_hand).1 < s then
              compute_dealer_probabilities dealer_hand (DealerOutcome.score s) * (-1)
           else compute_dealer_probabilities dealer_hand (DealerOutcome.score s) * 0) := by
      apply Finset.sum_le_sum
      intro s _
      have hn := compute_dealer_probabilities_nonneg dealer_hand (DealerOutcome.score s)
      by_cases h1 : (hand_value player_hand).1 > s
      · simp [h1]
        linarith
      · rw [if_neg h1]
        by_cases h2 : (hand_value player_hand).1 < s
        · simp [h2]
        · simp [h2]
          linarith
    rw [Finset.sum_neg_distrib] at hsum
    linarith

/-- `get_stand_value` is monotone in the player total (for non-busted
comparison hands): standing on a higher total is never worse. -/
lemma get_stand_value_mono {p q : List ℕ} (dealer_hand : List ℕ)
    (hpq : (hand_value p).1 ≤ (hand_value q).1) (hq : (hand_value q).1 ≤ 21) :
    get_stand_value p dealer_hand ≤ get_stand_value q dealer_hand := by
  unfold get_stand_value
  have hp : ¬ 21 < (hand_value p).1 := by omega
  have hq' : ¬ 21 < (hand_value q).1 := by omega
  rw [if_neg hp, if_neg hq']
  simp only
  have hsum : ∑ s ∈ Finset.Icc 17 21,
      (if (hand_value p).1 > s then
          compute_dealer_probabilities dealer_hand (DealerOutcome.score s) * 1
       else if (hand_value p).1 < s then
          compute_dealer_probabilities dealer_hand (DealerOutcome.score s) * (-1)
       else compute_dealer_probabilities dealer_hand (DealerOutcome.score s) * 0)
      ≤ ∑ s ∈ Finset.Icc 17 21,
        (if (hand_value q).1 > s then
            compute_dealer_probabilities dealer_hand (DealerOutcome.score s) * 1
         else if (hand_value q).1 < s then
            compute_dealer_probabilities dealer_hand (DealerOutcome.score s) * (-1)
         else compute_dealer_probabilities dealer_hand (DealerOutcome.score s) * 0) := by
    apply Finset.sum_le_sum
    intro s _
    have hn := compute_dealer_probabilities_nonneg dealer_hand (DealerOutcome.score s)
    by_cases h1 : (hand_value p).1 > s
    · have h2 : (hand_value q).1 > s := by omega
      simp [h1, h2]
    · rw [if_neg h1]
      by_cases h3 : (hand_value q).1 > s
      · rw [if_pos h3]
        by_cases h4 : (hand_value p).1 < s <;> simp [h4] <;> linarith
      · rw [if_neg h3]
        by_cases h4 : (hand_value p).1 < s
        · rw [if_pos h4]
          by_cases h5 : (hand_value q).1 < s <;> simp [h5] <;> linarith
        · have h5 : ¬ (hand_value q).1 < s := by omega
          rw [if_neg h4, if_neg h5]
  linarith

/-- For player totals at most 16, the stand value does not depend on the
exact total: every standing dealer score beats the player, so the value is
P(dealer bust) minus P(dealer stands). -/
lemma get_stand_value_const_low {p q : List ℕ} (dealer_hand : List ℕ)
    (hp : (hand_value p).1 ≤ 16) (hq : (hand_value q).1 ≤ 16) :
    get_stand_value p dealer_hand = get_stand_value q dealer_hand := by
  unfold get_stand_value
  have hp' : ¬ 21 < (hand_value p).1 := by omega
  have hq' : ¬ 21 < (hand_value q).1 := by omega
  rw [if_neg hp', if_neg hq']
  simp only
  congr 1
  apply Finset.sum_congr rfl
  intro s hs
  have h17 : 17 ≤ s := (Finset.mem_Icc.mp hs).1
  have h1 : ¬ (hand_value p).1 > s := by omega
  have h2 : (hand_value p).1 < s := by omega
  have h3 : ¬ (hand_value q).1 > s := by omega
  have h4 : (hand_value q).1 < s := by omega
  rw [if_neg h1, if_pos h2, if_neg h3, if_pos h4]

/-- Standing on exactly 21 beats standing on at most 16 by at least the
probability that the dealer finishes with a standing score. -/
lemma get_stand_value_21_gap {p q : List ℕ} (dealer_hand : List ℕ)
    (hp : (hand_value p).1 = 21) (hq : (hand_value q).1 ≤ 16) :
    get_stand_value q dealer_hand + scoresMass (compute_dealer_probabilities dealer_hand)
      ≤ get_stand_value p dealer_hand := by
  unfold get_stand_value scoresMass
  have hp' : ¬ 21 < (hand_value p).1 := by omega
  have hq' : ¬ 21 < (hand_value q).1 := by omega
  rw [if_neg hp', if_neg hq']
  simp only
  have hsum : ∑ s ∈ Finset.Icc 17 21,
      ((if (hand_value q).1 > s then
          compute_dealer_probabilities dealer_hand (DealerOutcome.score s) * 1
        else if (hand_value q).1 < s then
          compute_dealer_probabilities dealer_hand (DealerOutcome.score s) * (-1)
        else compute_dealer_probabilities dealer_hand (DealerOutcome.score s) * 0)
        + compute_dealer_probabilities dealer_hand (DealerOutcome.score s))
      ≤ ∑ s ∈ Finset.Icc 17 21,
        (if (hand_value p).1 > s then
            compute_dealer_probabilities dealer_hand (DealerOutcome.score s) * 1
         else if (hand_value p).1 < s then
            compute_dealer_probabilities dealer_hand (DealerOutcome.score s) * (-1)
         else compute_dealer_probabilities dealer_hand (DealerOutcome.score s) * 0) := by
    apply Finset.sum_le_sum
    intro s hs
    obtain ⟨h17, h21⟩ := Finset.mem_Icc.mp hs
    have hn := compute_dealer_probabilities_nonneg dealer_hand (DealerOutcome.score s)
    have h1 : ¬ (hand_value q).1 > s := by omega
    have h2 : (hand_value q).1 < s := by omega
    rw [if_neg h1, if_pos h2]
    by_cases h3 : (hand_value p).1 > s
    · rw [if_pos h3]
      linarith
    · have h4 : s = 21 := by omega
      have h5 : ¬ (hand_value p).1 < s := by omega
      rw [if_neg h3, if_neg h5]
      linarith
  rw [Finset.sum_add_distrib] at hsum
  linarith

/-! ### Extended rationals

Python's floats include `math.inf` and `-math.inf`, used as initial values of
`alpha`, `beta` and the running min/max accumulators of the search agents.
`XQ` adjoins both infinities to `ℚ`; Python's `max(a, b)` / `min(a, b)` and
comparisons coincide with the linear-order operations below. -/

inductive XQ where
  | ninf : XQ
  | fin (q : ℚ) : XQ
  | pinf : XQ
deriving DecidableEq

namespace XQ

/-- Boolean comparison giving the order on `XQ`. -/
def ble : XQ → XQ → Bool
  | ninf, _ => true
  | fin _, ninf => false
  | fin a, fin b => a ≤ b
  | fin _, pinf => true
  | pinf, pinf => true
  | pinf, _ => false

instance : LE XQ := ⟨fun a b => ble a b = true⟩
instance : LT XQ := ⟨fun a b => a ≤ b ∧ ¬ b ≤ a⟩

lemma le_def (a b : XQ) : (a ≤ b) = (ble a b = true) := rfl

instance decidableLE : DecidableRel ((· ≤ ·) : XQ → XQ → Prop) := fun a b =>
  decidable_of_iff (ble a b = true) (Iff.of_eq (le_def a b).symm)

instance : LinearOrder XQ where
  le_refl a := by
    cases a <;> simp [le_def, ble]
  le_trans a b c hab hbc := by
    cases a <;> cases b <;> cases c <;> simp_all [le_def, ble]
    exact le_trans hab hbc
  le_antisymm a b hab hba := by
    cases a <;> cases b <;> simp_all [le_def, ble]
    exact le_antisymm hab hba
  le_total a b := by
    cases a <;> cases b <;> simp [le_def, ble]
    exact le_total _ _
  lt_iff_le_not_le _ _ := Iff.rfl
  decidableLE := decidableLE

lemma fin_le_fin {a b : ℚ} : (fin a ≤ fin b) ↔ a ≤ b := by
  simp [le_def, ble]

lemma fin_lt_fin {a b : ℚ} : (fin a < fin b) ↔ a < b := by
  constructor
  · intro h
    have h1 := fin_le_fin.mp h.1
    have h2 := h.2
    rw [fin_le_fin] at h2
    exact lt_of_le_not_le h1 h2
  · intro h
    exact ⟨fin_le_fin.mpr h.le, fun hc => absurd (fin_le_fin.mp hc) (not_le.mpr h)⟩

lemma le_pinf (a : XQ) : a ≤ pinf := by
  cases a <;> simp [le_def, ble]

lemma ninf_le (a : XQ) : ninf ≤ a := by
  cases a <;> simp [le_def, ble]

lemma not_pinf_le_fin (q : ℚ) : ¬ (pinf ≤ fin q) := by
  simp [le_def, ble]

lemma not_fin_le_ninf (q : ℚ) : ¬ (fin q ≤ ninf) := by
  simp [le_def, ble]

lemma fin_lt_pinf (q : ℚ) : fin q < pinf :=
  ⟨le_pinf _, not_pinf_le_fin q⟩

lemma ninf_lt_fin (q : ℚ) : ninf < fin q :=
  ⟨ninf_le _, not_fin_le_ninf q⟩

lemma max_ninf (a : XQ) : max ninf a = a := max_eq_right (ninf_le a)

lemma min_pinf (a : XQ) : min pinf a = a := min_eq_right (le_pinf a)

lemma max_fin_fin (a b : ℚ) : max (fin a) (fin b) = fin (max a b) := by
  rcases le_total a b with h | h
  · rw [max_eq_right h, max_eq_right (fin_le_fin.mpr h)]
  · rw [max_eq_left h, max_eq_left (fin_le_fin.mpr h)]

lemma min_fin_fin (a b : ℚ) : min (fin a) (fin b) = fin (min a b) := by
  rcases le_total a b with h | h
  · rw [min_eq_left h, min_eq_left (fin_le_fin.mpr h)]
  · rw [min_eq_right h, min_eq_right (fin_le_fin.mpr h)]

end XQ

/-! ### Game state (src/env/blackjack_env.py) -/

/-- The state dict produced by `BlackjackEnv`: the agents read only the
`player` and `dealer` hands. -/
structure GameState where
  player : List ℕ
  dealer : List ℕ
  turn : String
  done : Bool
  reward : ℤ

/-! ### Strategy A — exhaustive minimax (src/agents/minimax.py)

`_max_value` / `_min_value` recurse with an integer `depth` that may go
negative (the `depth == 0` test then never fires); the recursion still
terminates because `_min_value` always appends a card, so the player total
eventually exceeds 21 and `_max_value` returns -1.  The embedding makes that
argument explicit with a fuel parameter decremented at each appended card:
fuel 22 always suffices because a hand whose minimal total exceeds 21 is
bust (`minimax.maxValueF` never reaches fuel 0 from fuel 22). -/

namespace minimax

def DEFAULT_MAX_DEPTH : ℤ := 4

mutual
/-- Fuel-indexed `_max_value` of minimax.py. -/
def maxValueF : ℕ → List ℕ → List ℕ → ℤ → XQ
  | fuel, player_hand, dealer_hand, depth =>
    if 21 < (hand_value player_hand).1 then XQ.fin (-1)
    else if depth = 0 then XQ.fin (get_stand_value player_hand dealer_hand)
    else
      max (XQ.fin (get_stand_value player_hand dealer_hand))
        (minLoopF fuel player_hand dealer_hand (depth - 1) XQ.pinf ranks13)
  termination_by fuel _ _ _ => (fuel, 1, 0)

/-- The rank loop of `_min_value` of minimax.py, carrying the running
minimum `min_eval` (initially `math.inf`). -/
def minLoopF : ℕ → List ℕ → List ℕ → ℤ → XQ → List ℕ → XQ
  | _, _, _, _, min_eval, [] => min_eval
  | 0, _, _, _, min_eval, _ :: _ => min_eval
  | fuel + 1, player_hand, dealer_hand, depth, min_eval, r :: rs =>
    minLoopF (fuel + 1) player_hand dealer_hand depth
      (min min_eval (maxValueF fuel (player_hand ++ [r]) dealer_hand depth)) rs
  termination_by fuel _ _ _ _ rs => (fuel, 0, rs.length)
end

/-- `_max_value` of minimax.py at its canonical fuel. -/
def max_value (player_hand dealer_hand : List ℕ) (depth : ℤ) : XQ :=
  maxValueF 22 player_hand dealer_hand depth

/-- `_min_value` of minimax.py at its canonical fuel. -/
def min_value (player_hand dealer_hand : List ℕ) (depth : ℤ) : XQ :=
  minLoopF 22 player_hand dealer_hand depth XQ.pinf ranks13

/-- `find_best_move` of minimax.py (Strategy A). -/
def find_best_move (state : GameState) (max_depth : ℤ := DEFAULT_MAX_DEPTH) : String :=
  let player_hand := state.player
  let dealer_hand := state.dealer
  let stand_eval := get_stand_value player_hand dealer_hand
  let hit_eval := min_value player_hand dealer_hand (max_depth - 1)
  if hit_eval ≤ XQ.fin stand_eval then "stand" else "hit"

end minimax

/-! ### Strategy B — minimax with alpha-beta pruning (src/agents/minimax_agent.py) -/

namespace minimax_agent

def DEFAULT_MAX_DEPTH : ℤ := 4

mutual
/-- Fuel-indexed `_max_value` of minimax_agent.py: identical to Strategy A's
except that the hit branch is explored only while `beta > alpha` after
raising `alpha` to the stand value. -/
def maxValueF : ℕ → List ℕ → List ℕ → ℤ → XQ → XQ → XQ
  | fuel, player_hand, dealer_hand, depth, alpha, beta =>
    if 21 < (hand_value player_hand).1 then XQ.fin (-1)
    else if depth = 0 then XQ.fin (get_stand_value player_hand dealer_hand)
    else
      let stand_eval := XQ.fin (get_stand_value player_hand dealer_hand)
      let max_eval := max XQ.ninf stand_eval
      let alpha1 := max alpha max_eval
      if alpha1 < beta then
        max max_eval
          (minLoopF fuel player_hand dealer_hand (depth - 1) alpha1 beta XQ.pinf ranks13)
      else max_eval
  termination_by fuel _ _ _ _ _ => (fuel, 1, 0)

/-- The rank loop of `_min_value` of minimax_agent.py: after each branch the
running minimum lowers `beta`, and the loop breaks as soon as
`beta <= alpha`. -/
def minLoopF : ℕ → List ℕ → List ℕ → ℤ → XQ → XQ → XQ → List ℕ → XQ
  | _, _, _, _, _, _, min_eval, [] => min_eval
  | 0, _, _, _, _, _, min_eval, _ :: _ => min_eval
  | fuel + 1, player_hand, dealer_hand, depth, alpha, beta, min_eval, r :: rs =>
    let ev := maxValueF fuel (player_hand ++ [r]) dealer_hand depth alpha beta
    let min_eval1 := min min_eval ev
    let beta1 := min beta min_eval1
    if beta1 ≤ alpha then min_eval1
    else minLoopF (fuel + 1) player_hand dealer_hand depth alpha beta1 min_eval1 rs
  termination_by fuel _ _ _ _ _ _ rs => (fuel, 0, rs.length)
end

/-- `_min_value` of minimax_agent.py at its canonical fuel. -/
def min_value (player_hand dealer_hand : List ℕ) (depth : ℤ) (alpha beta : XQ) : XQ :=
  minLoopF 22 player_hand dealer_hand depth alpha beta XQ.pinf ranks13

/-- `find_best_move` of minimax_agent.py (Strategy B): `alpha` starts at
-inf and is raised to the stand value before the hit branch is evaluated
with the window (alpha, +inf). -/
def find_best_move (state : GameState) (max_depth : ℤ := DEFAULT_MAX_DEPTH) : String :=
  let player_hand := state.player
  let dealer_hand := state.dealer
  let alpha := XQ.ninf
  let beta := XQ.pinf
  let stand_eval := get_stand_value player_hand dealer_hand
  let alpha1 := max alpha (XQ.fin stand_eval)
  let hit_eval := min_value player_hand dealer_hand (max_depth - 1) alpha1 beta
  if hit_eval ≤ XQ.fin stand_eval then "stand" else "hit"

end minimax_agent

/-! ### Strategy C — expectimax (src/agents/expectimax_agent.py) -/

namespace expectimax_agent

def DEFAULT_MAX_DEPTH : ℤ := 4

/-- `CARD_PROBABILITIES` of expectimax_agent.py: each rank 1-13 with
probability 1/13. -/
def CARD_PROBABILITIES : List (ℕ × ℚ) := (List.range' 1 13).map (fun rank => (rank, 1 / 13))

mutual
/-- Fuel-indexed `_max_value` of expectimax_agent.py (same shape as Strategy
A's max node, no alpha/beta). -/
def maxValueF : ℕ → List ℕ → List ℕ → ℤ → ℚ
  | fuel, player_hand, dealer_hand, depth =>
    if 21 < (hand_value player_hand).1 then -1
    else if depth = 0 then get_stand_value player_hand dealer_hand
    else
      max (get_stand_value player_hand dealer_hand)
        (expLoopF fuel player_hand dealer_hand (depth - 1) 0 CARD_PROBABILITIES)
  termination_by fuel _ _ _ => (fuel, 1, 0)

/-- The rank loop of `_expected_value` of expectimax_agent.py, accumulating
`eval_of_this_branch * probability` into `total_expected_value`. -/
def expLoopF : ℕ → List ℕ → List ℕ → ℤ → ℚ → List (ℕ × ℚ) → ℚ
  | _, _, _, _, total_expected_value, [] => total_expected_value
  | 0, _, _, _, total_expected_value, _ :: _ => total_expected_value
  | fuel + 1, player_hand, dealer_hand, depth, total_expected_value, (rank, probability) :: rest =>
    expLoopF (fuel + 1) player_hand dealer_hand depth
      (total_expected_value
        + maxValueF fuel (player_hand ++ [rank]) dealer_hand depth * probability) rest
  termination_by fuel _ _ _ _ l => (fuel, 0, l.length)
end

/-- `_expected_value` of expectimax_agent.py at its canonical fuel. -/
def expected_value (player_hand dealer_hand : List ℕ) (depth : ℤ) : ℚ :=
  expLoopF 22 player_hand dealer_hand depth 0 CARD_PROBABILITIES

/-- `find_best_move` of expectimax_agent.py (Strategy C). -/
def find_best_move (state : GameState) (max_depth : ℤ := DEFAULT_MAX_DEPTH) : String :=
  let player_hand := state.player
  let dealer_hand := state.dealer
  let stand_eval := get_stand_value player_hand dealer_hand
  let hit_eval := expected_value player_hand dealer_hand (max_depth - 1)
  if hit_eval ≤ stand_eval then "stand" else "hit"

end expectimax_agent

lemma get_stand_value_total_eq {p q : List ℕ} (dealer_hand : List ℕ)
    (h : (hand_value p).1 = (hand_value q).1) :
    get_stand_value p dealer_hand = get_stand_value q dealer_hand := by
  unfold get_stand_value
  rw [h]

lemma total_append_eq (p : List ℕ) (r : ℕ) :
    (hand_value (p ++ [r])).1
      = if softCond (p ++ [r]) then minTotal p + cardMin r + 10
        else minTotal p + cardMin r := by
  rw [hand_value_char, minTotal_append]

lemma softCond_append (p : List ℕ) (r : ℕ) :
    softCond (p ++ [r])
      ↔ (0 < acesCount p + (if r = 1 then 1 else 0)
          ∧ minTotal p + cardMin r + 10 ≤ 21) := by
  unfold softCond
  rw [acesCount_append, minTotal_append]

/-- From any non-busted player hand there is a draw whose one-step value
(-1 if it busts, else its stand value) does not exceed the current stand
value: the malicious deck can always avoid improving the player's lot. -/
lemma exists_branch_le (p dealer_hand : List ℕ) (h : (hand_value p).1 ≤ 21) :
    ∃ rc ∈ ranks13,
      (if 21 < (hand_value (p ++ [rc])).1 then (-1 : ℚ)
       else get_stand_value (p ++ [rc]) dealer_hand) ≤ get_stand_value p dealer_hand := by
  have hc1 : cardMin 1 = 1 := by decide
  have hc2 : cardMin 2 = 2 := by decide
  have hc13 : cardMin 13 = 10 := by decide
  by_cases hs : softCond p
  · have ht : (hand_value p).1 = minTotal p + 10 := by
      rw [hand_value_char, if_pos hs]
    have hmt1 : 1 ≤ minTotal p := le_trans hs.1 (acesCount_le_minTotal p)
    by_cases hmt : minTotal p = 1
    · refine ⟨1, by decide, ?_⟩
      have hsoft' : softCond (p ++ [1]) := by
        rw [softCond_append]
        constructor
        · simp
        · rw [hc1]
          omega
      have ht' : (hand_value (p ++ [1])).1 = 12 := by
        rw [total_append_eq, if_pos hsoft', hc1]
        omega
      rw [ht']
      have : ¬ (21 < 12) := by omega
      rw [if_neg this]
      exact le_of_eq (get_stand_value_const_low dealer_hand (by omega) (by omega))
    · refine ⟨13, by decide, ?_⟩
      have hns' : ¬ softCond (p ++ [13]) := by
        rw [softCond_append, hc13]
        rintro ⟨-, hcon⟩
        have := hs.2
        omega
      have ht' : (hand_value (p ++ [13])).1 = minTotal p + 10 := by
        rw [total_append_eq, if_neg hns', hc13]
      have hle : (hand_value (p ++ [13])).1 ≤ 21 := by
        rw [ht']
        exact hs.2
      rw [if_neg (by omega)]
      exact le_of_eq (get_stand_value_total_eq dealer_hand (by rw [ht', ht]))
  · have ht : (hand_value p).1 = minTotal p := by
      rw [hand_value_char, if_neg hs]
    by_cases hmt : 12 ≤ minTotal p
    · refine ⟨13, by decide, ?_⟩
      have hns' : ¬ softCond (p ++ [13]) := by
        rw [softCond_append, hc13]
        rintro ⟨-, hcon⟩
        omega
      have ht' : (hand_value (p ++ [13])).1 = minTotal p + 10 := by
        rw [total_append_eq, if_neg hns', hc13]
      rw [if_pos (by omega)]
      exact neg_one_le_get_stand_value p dealer_hand
    · have haces : acesCount p = 0 := by
        by_contra hne
        exact hs ⟨Nat.pos_of_ne_zero hne, by omega⟩
      refine ⟨2, by decide, ?_⟩
      have hns' : ¬ softCond (p ++ [2]) := by
        rw [softCond_append, haces]
        simp
      have ht' : (hand_value (p ++ [2])).1 = minTotal p + 2 := by
        rw [total_append_eq, if_neg hns', hc2]
      rw [if_neg (by omega)]
      exact le_of_eq (get_stand_value_const_low dealer_hand (by omega) (by omega))

lemma bust_append {p : List ℕ} (r : ℕ) (h : 21 < (hand_value p).1) :
    21 < (hand_value (p ++ [r])).1 := by
  have hs : ¬ softCond p := by
    intro hcon
    rw [hand_value_char, if_pos hcon] at h
    have := hcon.2
    omega
  have ht : (hand_value p).1 = minTotal p := by
    rw [hand_value_char, if_neg hs]
  rw [ht] at h
  have h1 := one_le_cardMin r
  have hns' : ¬ softCond (p ++ [r]) := by
    rw [softCond_append]
    rintro ⟨-, hcon⟩
    omega
  rw [total_append_eq, if_neg hns']
  omega

namespace minimax

lemma minLoopF_le_acc (fuel : ℕ) (p dealer_hand : List ℕ) (depth : ℤ) :
    ∀ (rs : List ℕ) (acc : XQ), minLoopF fuel p dealer_hand depth acc rs ≤ acc := by
  intro rs
  induction rs with
  | nil =>
    intro acc
    match fuel with
    | 0 => rw [minLoopF]
    | fuel + 1 => rw [minLoopF]
  | cons r rs ih =>
    intro acc
    match fuel with
    | 0 => rw [minLoopF]
    | fuel + 1 =>
      rw [minLoopF]
      exact le_trans (ih _) (min_le_left _ _)

lemma minLoopF_le_branch {fuel : ℕ} (p dealer_hand : List ℕ) (depth : ℤ) :
    ∀ {rs : List ℕ} {acc : XQ} {r : ℕ}, r ∈ rs →
      minLoopF (fuel + 1) p dealer_hand depth acc rs
        ≤ maxValueF fuel (p ++ [r]) dealer_hand depth := by
  intro rs
  induction rs with
  | nil =>
    intro acc r hr
    simp at hr
  | cons r0 rs ih =>
    intro acc r hr
    rw [minLoopF]
    rcases List.mem_cons.mp hr with h1 | h2
    · subst h1
      exact le_trans (minLoopF_le_acc _ _ _ _ _ _) (min_le_right _ _)
    · exact ih h2

lemma minLoopF_lower {fuel : ℕ} (p dealer_hand : List ℕ) (depth : ℤ) {c : XQ} :
    ∀ {rs : List ℕ} {acc : XQ},
      (∀ r ∈ rs, c ≤ maxValueF fuel (p ++ [r]) dealer_hand depth) → c ≤ acc →
      c ≤ minLoopF (fuel + 1) p dealer_hand depth acc rs := by
  intro rs
  induction rs with
  | nil =>
    intro acc _ hacc
    rw [minLoopF]
    exact hacc
  | cons r0 rs ih =>
    intro acc hr hacc
    rw [minLoopF]
    exact ih (fun r h => hr r (List.mem_cons_of_mem r0 h))
      (le_min hacc (hr r0 (List.mem_cons_self r0 rs)))

/-- Strategy A's `_max_value` at a negative depth: the `depth == 0` cutoff
never fires, and the exhaustive worst-case value collapses to the stand
value (the malicious deck never lets a hit improve on standing). -/
lemma maxValueF_neg_depth {fuel : ℕ} {p : List ℕ} (dealer_hand : List ℕ) {depth : ℤ}
    (hd : depth < 0) (hfuel : 22 ≤ minTotal p + fuel) :
    maxValueF fuel p dealer_hand depth
      = XQ.fin (if 21 < (hand_value p).1 then -1 else get_stand_value p dealer_hand) := by
  induction fuel using Nat.strong_induction_on generalizing p depth with
  | _ fuel ih =>
    rw [maxValueF]
    by_cases hb : 21 < (hand_value p).1
    · rw [if_pos hb, if_pos hb]
    · rw [if_neg hb, if_neg hb]
      have hd0 : ¬ (depth = 0) := by omega
      rw [if_neg hd0]
      have hmt : minTotal p ≤ 21 := le_trans (minTotal_le_total p) (by omega)
      have hfuel1 : 1 ≤ fuel := by omega
      obtain ⟨fuel', rfl⟩ : ∃ fuel', fuel = fuel' + 1 :=
        ⟨fuel - 1, by omega⟩
      obtain ⟨rc, hrc, hle⟩ := exists_branch_le p dealer_hand (by omega)
      have hbranch : maxValueF fuel' (p ++ [rc]) dealer_hand (depth - 1)
          = XQ.fin (if 21 < (hand_value (p ++ [rc])).1 then -1
                    else get_stand_value (p ++ [rc]) dealer_hand) := by
        apply ih fuel' (Nat.lt_succ_self fuel') (by omega)
        have := one_le_cardMin rc
        rw [minTotal_append]
        omega
      have hloople : minLoopF (fuel' + 1) p dealer_hand (depth - 1) XQ.pinf ranks13
          ≤ XQ.fin (get_stand_value p dealer_hand) := by
        refine le_trans (minLoopF_le_branch p dealer_hand (depth - 1) hrc) ?_
        rw [hbranch]
        exact XQ.fin_le_fin.mpr hle
      exact max_eq_left hloople

end minimax

/-- C7: for every state, Strategy A's `find_best_move` called with a depth
budget of 0 returns "stand".  With `max_depth = 0` the hit evaluation runs
`_min_value` at depth -1, which recurses (the `depth == 0` cutoff never
fires again) until every line busts; its value never exceeds the stand
value, and the root tie-break `stand_eval >= hit_eval` favours standing. -/
theorem C7_depth_zero_stands (state : GameState) :
    minimax.find_best_move state 0 = "stand" := by
  show (if minimax.minLoopF 22 state.player state.dealer (0 - 1) XQ.pinf ranks13
          ≤ XQ.fin (get_stand_value state.player state.dealer)
        then "stand" else "hit") = "stand"
  have key : minimax.minLoopF 22 state.player state.dealer (0 - 1) XQ.pinf ranks13
      ≤ XQ.fin (get_stand_value state.player state.dealer) := by
    by_cases hb : 21 < (hand_value state.player).1
    · have hbranch : minimax.maxValueF 21 (state.player ++ [1]) state.dealer (0 - 1)
          = XQ.fin (-1) := by
        rw [minimax.maxValueF_neg_depth state.dealer (by omega)
          (by rw [minTotal_append]; have := one_le_cardMin 1; omega)]
        rw [if_pos (bust_append 1 hb)]
      rw [get_stand_value_bust state.dealer hb]
      calc minimax.minLoopF 22 state.player state.dealer (0 - 1) XQ.pinf ranks13
          ≤ minimax.maxValueF 21 (state.player ++ [1]) state.dealer (0 - 1) :=
            minimax.minLoopF_le_branch state.player state.dealer (0 - 1) (by decide)
        _ = XQ.fin (-1) := hbranch
    · obtain ⟨rc, hrc, hle⟩ := exists_branch_le state.player state.dealer (by omega)
      have hbranch : minimax.maxValueF 21 (state.player ++ [rc]) state.dealer (0 - 1)
          = XQ.fin (if 21 < (hand_value (state.player ++ [rc])).1 then -1
                    else get_stand_value (state.player ++ [rc]) state.dealer) := by
        apply minimax.maxValueF_neg_depth state.dealer (by omega)
        rw [minTotal_append]
        have := one_le_cardMin rc
        omega
      calc minimax.minLoopF 22 state.player state.dealer (0 - 1) XQ.pinf ranks13
          ≤ minimax.maxValueF 21 (state.player ++ [rc]) state.dealer (0 - 1) :=
            minimax.minLoopF_le_branch state.player state.dealer (0 - 1) hrc
        _ ≤ XQ.fin (get_stand_value state.player state.dealer) := by
            rw [hbranch]
            exact XQ.fin_le_fin.mpr hle
  rw [if_pos key]

namespace minimax_agent

/-- Fail-soft relation between a pruned search value `r` and the exact
(unpruned) value `v` for the window (`alpha`, `beta`): a value at most
`alpha` is an upper bound on `v`, a value at least `beta` is a lower bound
on `v`, and a value strictly inside the window is exact. -/
def Approx (alpha beta r v : XQ) : Prop :=
  (r ≤ alpha → v ≤ r) ∧ (beta ≤ r → r ≤ v) ∧ (alpha < r → r < beta → r = v)

lemma Approx_self {alpha beta x : XQ} : Approx alpha beta x x :=
  ⟨fun h => le_trans h (le_of_eq rfl) |>.trans_eq rfl |> fun _ => le_refl x,
   fun _ => le_refl x, fun _ _ => rfl⟩

lemma Approx_pinf {alpha beta : XQ} (h : alpha < XQ.pinf) :
    Approx alpha beta XQ.pinf XQ.pinf :=
  ⟨fun hc => absurd (lt_of_lt_of_le h hc) (lt_irrefl _),
   fun _ => le_refl _, fun _ _ => rfl⟩

/-- Fail-soft invariant for the pruned rank loop of `_min_value`, assuming
fail-soft correctness of the branch evaluations at the inner fuel. -/
lemma loop_approx {fuel : ℕ} {dealer_hand : List ℕ}
    (hbr : ∀ (q : List ℕ) (depth : ℤ) (alpha beta : XQ), alpha < beta →
      Approx alpha beta (maxValueF fuel q dealer_hand depth alpha beta)
        (minimax.maxValueF fuel q dealer_hand depth)) :
    ∀ (rs : List ℕ) (p : List ℕ) (depth : ℤ) (alpha beta0 mB mA : XQ),
      alpha < min beta0 mB → Approx alpha beta0 mB mA →
      Approx alpha beta0
        (minLoopF (fuel + 1) p dealer_hand depth alpha (min beta0 mB) mB rs)
        (minimax.minLoopF (fuel + 1) p dealer_hand depth mA rs) := by
  intro rs
  induction rs with
  | nil =>
    intro p depth alpha beta0 mB mA hw hinv
    rw [minLoopF, minimax.minLoopF]
    exact hinv
  | cons r rs ih =>
    intro p depth alpha beta0 mB mA hw hinv
    rw [minLoopF, minimax.minLoopF]
    set ev := maxValueF fuel (p ++ [r]) dealer_hand depth alpha (min beta0 mB) with hev
    set evA := minimax.maxValueF fuel (p ++ [r]) dealer_hand depth with hevA
    have happrox : Approx alpha (min beta0 mB) ev evA := hbr _ _ _ _ hw
    have hbeta1 : min (min beta0 mB) (min mB ev) = min beta0 (min mB ev) := by
      rw [min_assoc]
      congr 1
      rw [← min_assoc, min_self]
    by_cases hbrk : min (min beta0 mB) (min mB ev) ≤ alpha
    · rw [if_pos hbrk]
      rw [hbeta1] at hbrk
      have hwb : alpha < beta0 := lt_of_lt_of_le hw (min_le_left _ _)
      have hm'le : min mB ev ≤ alpha := by
        rcases min_le_iff.mp hbrk with h | h
        · exact absurd h (not_le.mpr hwb)
        · exact h
      refine ⟨?_, ?_, ?_⟩
      · intro _
        have hABle : min mA evA ≤ min mB ev := by
          rcases le_total mB ev with hc | hc
          · have hmm : min mB ev = mB := min_eq_left hc
            rw [hmm] at hm'le ⊢
            exact le_trans (min_le_left _ _) (hinv.1 hm'le)
          · have hmm : min mB ev = ev := min_eq_right hc
            rw [hmm] at hm'le ⊢
            exact le_trans (min_le_right _ _) (happrox.1 hm'le)
        exact le_trans (minimax.minLoopF_le_acc _ _ _ _ _ _) hABle
      · intro hc
        exfalso
        exact absurd (lt_of_lt_of_le hwb (le_trans hc hm'le)) (lt_irrefl _)
      · intro hc _
        exact absurd (lt_of_lt_of_le hc hm'le) (lt_irrefl _)
    · rw [if_neg hbrk]
      rw [hbeta1] at hbrk ⊢
      have hw' : alpha < min beta0 (min mB ev) := not_le.mp hbrk
      have hwb : alpha < beta0 := lt_of_lt_of_le hw (min_le_left _ _)
      have hinv' : Approx alpha beta0 (min mB ev) (min mA evA) := by
        refine ⟨?_, ?_, ?_⟩
        · intro hc
          exfalso
          exact absurd (lt_of_lt_of_le (lt_of_lt_of_le hw' (min_le_right _ _)) hc)
            (lt_irrefl _)
        · intro hc
          rcases le_min_iff.mp hc with ⟨h1, h2⟩
          exact min_le_min (hinv.2.1 h1) (happrox.2.1 (le_trans (min_le_left _ _) h2))
        · intro ha hb
          by_cases hcase : ev < min beta0 mB
          · have hae : alpha < ev := lt_of_lt_of_le ha (min_le_right mB ev)
            have heq : ev = evA := happrox.2.2 hae hcase
            have hevmB : ev < mB := lt_of_lt_of_le hcase (min_le_right beta0 mB)
            have hm' : min mB ev = ev := min_eq_right (le_of_lt hevmB)
            have hmA : ev ≤ mA := by
              have hamB : alpha < mB := lt_of_lt_of_le ha (min_le_left mB ev)
              by_cases hmb : mB < beta0
              · rw [← hinv.2.2 hamB hmb]
                exact le_of_lt hevmB
              · exact le_trans (le_of_lt hevmB) (hinv.2.1 (not_lt.mp hmb))
            rw [hm', ← heq]
            exact (min_eq_right hmA).symm
          · have hge : min beta0 mB ≤ ev := not_lt.mp hcase
            by_cases hb0 : beta0 ≤ mB
            · exfalso
              have h1 : beta0 ≤ ev := le_trans (le_of_eq (min_eq_left hb0).symm) hge
              exact absurd hb (not_lt.mpr (le_min hb0 h1))
            · have hmbb : mB < beta0 := not_le.mp hb0
              have hminmb : min beta0 mB = mB := min_eq_right (le_of_lt hmbb)
              have hmBev : mB ≤ ev := hminmb ▸ hge
              have hm' : min mB ev = mB := min_eq_left hmBev
              have hamB : alpha < mB := by
                rw [hm'] at ha
                exact ha
              have heqB : mB = mA := hinv.2.2 hamB hmbb
              have hevA : ev ≤ evA := happrox.2.1 (by rw [hminmb]; exact hmBev)
              have hmBevA : mB ≤ evA := le_trans hmBev hevA
              rw [hm', ← heqB]
              exact (min_eq_left hmBevA).symm
      exact ih p depth alpha beta0 (min mB ev) (min mA evA) hw' hinv'

/-- Combining the stand value with a fail-soft hit value at a Max node
preserves the fail-soft relation (with the window widened back from
`max alpha stand` to `alpha`). -/
lemma Approx_max_node {alpha beta stand hitB hitA : XQ}
    (hexp : max alpha stand < beta)
    (h : Approx (max alpha stand) beta hitB hitA) :
    Approx alpha beta (max stand hitB) (max stand hitA) := by
  refine ⟨?_, ?_, ?_⟩
  · intro hr
    have hhitB : hitB ≤ alpha := le_trans (le_max_right _ _) hr
    have hA : hitA ≤ hitB := h.1 (le_trans hhitB (le_max_left _ _))
    exact max_le (le_max_left _ _) (le_trans hA (le_max_right _ _))
  · intro hr
    rcases max_choice stand hitB with hc | hc
    · exfalso
      rw [hc] at hr
      exact absurd (lt_of_le_of_lt (le_trans hr (le_max_right alpha stand)) hexp)
        (lt_irrefl _)
    · rw [hc] at hr ⊢
      exact le_trans (h.2.1 hr) (le_max_right _ _)
  · intro ha hb
    by_cases hc : hitB ≤ max alpha stand
    · have hA : hitA ≤ hitB := h.1 hc
      by_cases hcs : hitB ≤ stand
      · rw [max_eq_left hcs, max_eq_left (le_trans hA hcs)]
      · push_neg at hcs
        exfalso
        have hba : hitB ≤ alpha := by
          rcases max_choice alpha stand with hm | hm
          · rw [hm] at hc
            exact hc
          · rw [hm] at hc
            exact absurd hc (not_le.mpr hcs)
        have hmax : max stand hitB = hitB := max_eq_right (le_of_lt hcs)
        rw [hmax] at ha
        exact absurd hba (not_le.mpr ha)
    · push_neg at hc
      by_cases hcb : hitB < beta
      · rw [h.2.2 hc hcb]
      · push_neg at hcb
        exfalso
        have hmax : max stand hitB = hitB :=
          max_eq_right (le_trans (le_max_right alpha stand) (le_of_lt hc))
        rw [hmax] at hb
        exact absurd hcb (not_le.mpr hb)

/-- Fail-soft correctness of the pruned `_max_value` against Strategy A's
exhaustive `_max_value`, for every fuel, depth and window. -/
theorem maxValueF_approx (fuel : ℕ) :
    ∀ (p dealer_hand : List ℕ) (depth : ℤ) (alpha beta : XQ), alpha < beta →
      Approx alpha beta (maxValueF fuel p dealer_hand depth alpha beta)
        (minimax.maxValueF fuel p dealer_hand depth) := by
  induction fuel using Nat.strong_induction_on with
  | _ fuel ih =>
    intro p dealer_hand depth alpha beta hw
    rw [maxValueF, minimax.maxValueF]
    by_cases hb : 21 < (hand_value p).1
    · rw [if_pos hb, if_pos hb]
      exact Approx_self
    · rw [if_neg hb, if_neg hb]
      by_cases hd : depth = 0
      · rw [if_pos hd, if_pos hd]
        exact Approx_self
      · rw [if_neg hd, if_neg hd]
        simp only [XQ.max_ninf]
        by_cases hexp : max alpha (XQ.fin (get_stand_value p dealer_hand)) < beta
        · rw [if_pos hexp]
          match fuel with
          | 0 =>
            have hr13 : ranks13 = 1 :: List.range' 2 12 := rfl
            rw [hr13, minLoopF, minimax.minLoopF]
            exact Approx_self
          | fuel + 1 =>
            have hloop := loop_approx (fun q depth' a b hab =>
              ih fuel (Nat.lt_succ_self fuel) q dealer_hand depth' a b hab)
              ranks13 p (depth - 1) (max alpha (XQ.fin (get_stand_value p dealer_hand)))
              beta XQ.pinf XQ.pinf
              (by rw [min_eq_left (XQ.le_pinf beta)]; exact hexp)
              (Approx_pinf (lt_of_lt_of_le hexp (XQ.le_pinf beta)))
            rw [min_eq_left (XQ.le_pinf beta)] at hloop
            exact Approx_max_node hexp hloop
        · rw [if_neg hexp]
          have hbs : beta ≤ XQ.fin (get_stand_value p dealer_hand) := by
            rcases max_choice alpha (XQ.fin (get_stand_value p dealer_hand)) with hm | hm
            · rw [hm] at hexp
              exact absurd hw (not_lt.mpr (not_lt.mp hexp))
            · rw [hm] at hexp
              exact not_lt.mp hexp
          refine ⟨?_, ?_, ?_⟩
          · intro hr
            exfalso
            exact absurd (lt_of_lt_of_le hw (le_trans hbs hr)) (lt_irrefl _)
          · intro _
            exact le_max_left _ _
          · intro _ hcon
            exact absurd (lt_of_le_of_lt hbs hcon) (lt_irrefl _)

end minimax_agent

/-- C1: for every game state and every depth budget, Strategy A
(exhaustive minimax, minimax.py) and Strategy B (alpha-beta pruned minimax,
minimax_agent.py) return the same action; the pruning never changes the root
decision. -/
theorem C1_pruning_preserves_root_decision (state : GameState) (max_depth : ℤ) :
    minimax_agent.find_best_move state max_depth = minimax.find_best_move state max_depth := by
  unfold minimax_agent.find_best_move minimax.find_best_move
  unfold minimax_agent.min_value minimax.min_value
  simp only [XQ.max_ninf]
  set st := XQ.fin (get_stand_value state.player state.dealer) with hst
  set hitB := minimax_agent.minLoopF 22 state.player state.dealer (max_depth - 1)
    st XQ.pinf XQ.pinf ranks13 with hhitB
  set hitA := minimax.minLoopF 22 state.player state.dealer (max_depth - 1)
    XQ.pinf ranks13 with hhitA
  have happrox : minimax_agent.Approx st XQ.pinf hitB hitA := by
    have h := minimax_agent.loop_approx
      (fun q depth' a b hab => minimax_agent.maxValueF_approx 21 q state.dealer depth' a b hab)
      ranks13 state.player (max_depth - 1) st XQ.pinf XQ.pinf XQ.pinf
      (by rw [min_self]; exact XQ.fin_lt_pinf _)
      (minimax_agent.Approx_pinf (XQ.fin_lt_pinf _))
    rw [min_self] at h
    exact h
  by_cases hB : hitB ≤ st
  · have hA : hitA ≤ st := le_trans (happrox.1 hB) hB
    rw [if_pos hB, if_pos hA]
  · have hlt : st < hitB := not_le.mp hB
    by_cases hp : XQ.pinf ≤ hitB
    · have h2 := happrox.2.1 hp
      have hA : ¬ hitA ≤ st := fun hc => hB (le_trans h2 hc)
      rw [if_neg hB, if_neg hA]
    · have heq := happrox.2.2 hlt (not_le.mp hp)
      rw [if_neg hB, ← heq, if_neg hB]

lemma cardMin_le_10 (r : ℕ) : cardMin r ≤ 10 := by
  unfold cardMin card_value
  by_cases h : r = 1
  · simp [h]
  · by_cases h2 : 2 ≤ r ∧ r ≤ 10 <;> simp [h, h2] <;> omega

lemma total_append_le_21_of_le_11 {p : List ℕ} (h : minTotal p ≤ 11) (r : ℕ) :
    (hand_value (p ++ [r])).1 ≤ 21 := by
  apply total_le_of_minTotal_le
  rw [minTotal_append]
  have := cardMin_le_10 r
  omega

/-- Appending any card to a hand totalling 11 yields total `11 + cardMin r`
(an ace is demoted immediately, a soft 11 absorbs any card while staying
soft): in particular the new total is in [12, 21] and rank 13 yields 21. -/
lemma total11_append {p : List ℕ} (h : (hand_value p).1 = 11) (r : ℕ) :
    (hand_value (p ++ [r])).1 = 11 + cardMin r := by
  have h1 := one_le_cardMin r
  have h10 := cardMin_le_10 r
  have h' : (if softCond p then minTotal p + 10 else minTotal p) = 11 := by
    rw [hand_value_char] at h
    exact h
  rw [total_append_eq]
  by_cases hs : softCond p
  · rw [if_pos hs] at h'
    have hmt : minTotal p = 1 := by omega
    have hsoft' : softCond (p ++ [r]) := by
      rw [softCond_append]
      exact ⟨by have := hs.1; omega, by omega⟩
    rw [if_pos hsoft', hmt]
    omega
  · rw [if_neg hs] at h'
    have haces : acesCount p = 0 := by
      by_contra hne
      exact hs ⟨Nat.pos_of_ne_zero hne, by omega⟩
    have hns' : ¬ softCond (p ++ [r]) := by
      rw [softCond_append, haces]
      by_cases hr1 : r = 1
      · subst hr1
        have : cardMin 1 = 1 := by decide
        rintro ⟨-, hcon⟩
        omega
      · simp [hr1]
    rw [if_neg hns', h']

lemma maxValueA_ge_stand {fuel : ℕ} {q dealer_hand : List ℕ} {depth : ℤ}
    (h : ¬ 21 < (hand_value q).1) :
    XQ.fin (get_stand_value q dealer_hand) ≤ minimax.maxValueF fuel q dealer_hand depth := by
  rw [minimax.maxValueF, if_neg h]
  by_cases hd : depth = 0
  · rw [if_pos hd]
  · rw [if_neg hd]
    exact le_max_left _ _

lemma maxValueB_ge_stand {fuel : ℕ} {q dealer_hand : List ℕ} {depth : ℤ} {alpha beta : XQ}
    (h : ¬ 21 < (hand_value q).1) :
    XQ.fin (get_stand_value q dealer_hand)
      ≤ minimax_agent.maxValueF fuel q dealer_hand depth alpha beta := by
  rw [minimax_agent.maxValueF, if_neg h]
  by_cases hd : depth = 0
  · rw [if_pos hd]
  · rw [if_neg hd]
    simp only [XQ.max_ninf]
    by_cases hexp : max alpha (XQ.fin (get_stand_value q dealer_hand)) < beta
    · rw [if_pos hexp]
      exact le_max_left _ _
    · rw [if_neg hexp]

lemma maxValueC_ge_stand {fuel : ℕ} {q dealer_hand : List ℕ} {depth : ℤ}
    (h : ¬ 21 < (hand_value q).1) :
    get_stand_value q dealer_hand ≤ expectimax_agent.maxValueF fuel q dealer_hand depth := by
  rw [expectimax_agent.maxValueF, if_neg h]
  by_cases hd : depth = 0
  · rw [if_pos hd]
  · rw [if_neg hd]
    exact le_max_left _ _

namespace minimax_agent

lemma minLoopF_lowerB {fuel : ℕ} (p dealer_hand : List ℕ) (depth : ℤ) {c : XQ} :
    ∀ {rs : List ℕ} {alpha beta acc : XQ},
      (∀ r ∈ rs, ∀ (a b : XQ),
        c ≤ maxValueF fuel (p ++ [r]) dealer_hand depth a b) → c ≤ acc →
      c ≤ minLoopF (fuel + 1) p dealer_hand depth alpha beta acc rs := by
  intro rs
  induction rs with
  | nil =>
    intro alpha beta acc _ hacc
    rw [minLoopF]
    exact hacc
  | cons r0 rs ih =>
    intro alpha beta acc hr hacc
    rw [minLoopF]
    have hev : c ≤ maxValueF fuel (p ++ [r0]) dealer_hand depth alpha beta :=
      hr r0 (List.mem_cons_self r0 rs) alpha beta
    by_cases hbrk : min beta (min acc (maxValueF fuel (p ++ [r0]) dealer_hand depth alpha beta)) ≤ alpha
    · rw [if_pos hbrk]
      exact le_min hacc hev
    · rw [if_neg hbrk]
      exact ih (fun r h a b => hr r (List.mem_cons_of_mem r0 h) a b) (le_min hacc hev)

end minimax_agent

/-- A busted player hand makes every one-card extension bust, so Strategy
A's hit evaluation is exactly -1 after the first branch, and the root
tie-break returns "stand". -/
lemma find_best_move_A_busted (state : GameState) (max_depth : ℤ)
    (h : 21 < (hand_value state.player).1) :
    minimax.find_best_move state max_depth = "stand" := by
  show (if minimax.minLoopF 22 state.player state.dealer (max_depth - 1) XQ.pinf ranks13
          ≤ XQ.fin (get_stand_value state.player state.dealer)
        then "stand" else "hit") = "stand"
  rw [get_stand_value_bust state.dealer h]
  have hbranch : minimax.maxValueF 21 (state.player ++ [1]) state.dealer (max_depth - 1)
      = XQ.fin (-1) := by
    rw [minimax.maxValueF, if_pos (bust_append 1 h)]
  have hle : minimax.minLoopF 22 state.player state.dealer (max_depth - 1) XQ.pinf ranks13
      ≤ XQ.fin (-1) := by
    calc minimax.minLoopF 22 state.player state.dealer (max_depth - 1) XQ.pinf ranks13
        ≤ minimax.maxValueF 21 (state.player ++ [1]) state.dealer (max_depth - 1) :=
          minimax.minLoopF_le_branch state.player state.dealer (max_depth - 1) (by decide)
      _ = XQ.fin (-1) := hbranch
  rw [if_pos hle]

/-- Same for Strategy B: the first branch busts with value -1, `beta` drops
to -1 which is at most the stand value held in `alpha`, the loop breaks and
the root returns "stand". -/
lemma find_best_move_B_busted (state : GameState) (max_depth : ℤ)
    (h : 21 < (hand_value state.player).1) :
    minimax_agent.find_best_move state max_depth = "stand" := by
  show (if minimax_agent.minLoopF 22 state.player state.dealer (max_depth - 1)
            (max XQ.ninf (XQ.fin (get_stand_value state.player state.dealer))) XQ.pinf
            XQ.pinf ranks13
          ≤ XQ.fin (get_stand_value state.player state.dealer)
        then "stand" else "hit") = "stand"
  rw [get_stand_value_bust state.dealer h, XQ.max_ninf]
  have hbranch : minimax_agent.maxValueF 21 (state.player ++ [1]) state.dealer
      (max_depth - 1) (XQ.fin (-1)) XQ.pinf = XQ.fin (-1) := by
    rw [minimax_agent.maxValueF, if_pos (bust_append 1 h)]
  have hr13 : ranks13 = 1 :: List.range' 2 12 := rfl
  have hloop : minimax_agent.minLoopF 22 state.player state.dealer (max_depth - 1)
      (XQ.fin (-1)) XQ.pinf XQ.pinf ranks13 = XQ.fin (-1) := by
    show minimax_agent.minLoopF (21 + 1) state.player state.dealer (max_depth - 1)
      (XQ.fin (-1)) XQ.pinf XQ.pinf ranks13 = XQ.fin (-1)
    rw [hr13, minimax_agent.minLoopF, hbranch, XQ.min_pinf, XQ.min_pinf,
      if_pos (le_refl (XQ.fin (-1)))]
  rw [hloop, if_pos (le_refl (XQ.fin (-1)))]

lemma ite_hit_or_stand (c : Prop) [Decidable c] :
    (if c then "stand" else "hit") = "hit" ∨ (if c then "stand" else "hit") = "stand" := by
  by_cases h : c <;> simp [h]

/-- C6 (amended): `find_best_move` of Strategies A and B performs no input
validation and has no failure path: on every input, busted hand or
non-positive depth included, it silently returns "hit" or "stand"; on a
player hand already exceeding 21 it returns "stand". -/
theorem C6_amended_no_validation (state : GameState) (max_depth : ℤ) :
    (minimax.find_best_move state max_depth = "hit"
      ∨ minimax.find_best_move state max_depth = "stand")
    ∧ (minimax_agent.find_best_move state max_depth = "hit"
      ∨ minimax_agent.find_best_move state max_depth = "stand")
    ∧ (21 < (hand_value state.player).1 →
        minimax.find_best_move state max_depth = "stand"
        ∧ minimax_agent.find_best_move state max_depth = "stand") := by
  refine ⟨?_, ?_, fun h => ⟨find_best_move_A_busted state max_depth h,
    find_best_move_B_busted state max_depth h⟩⟩
  · exact ite_hit_or_stand _
  · exact ite_hit_or_stand _

/-- C6 counterexample: called with a player hand already busted (total 25),
or with the non-positive depth budget 0, both Strategy A and Strategy B
silently return the action "stand" instead of failing fast. -/
theorem C6_counterexample_silent_action :
    minimax.find_best_move ⟨[10, 10, 5], [10, 10], "PLAYER", false, 0⟩ 4 = "stand"
    ∧ minimax_agent.find_best_move ⟨[10, 10, 5], [10, 10], "PLAYER", false, 0⟩ 4 = "stand"
    ∧ minimax.find_best_move ⟨[10, 10, 5], [10, 10], "PLAYER", false, 0⟩ 0 = "stand" :=
  ⟨find_best_move_A_busted _ 4 (by decide),
   find_best_move_B_busted _ 4 (by decide),
   find_best_move_A_busted _ 0 (by decide)⟩

/-- Witness for C6 (amended) at a concrete busted input. -/
theorem C6_amended_witness :
    21 < (hand_value [10, 10, 2]).1
    ∧ minimax.find_best_move ⟨[10, 10, 2], [9, 9], "PLAYER", false, 0⟩ 3 = "stand"
    ∧ minimax_agent.find_best_move ⟨[10, 10, 2], [9, 9], "PLAYER", false, 0⟩ 3 = "stand" :=
  ⟨by decide,
   (C6_amended_no_validation ⟨[10, 10, 2], [9, 9], "PLAYER", false, 0⟩ 3).2.2 (by decide)⟩

lemma sum_Icc_17_21 (g : ℕ → ℚ) :
    ∑ s ∈ Finset.Icc 17 21, g s = g 17 + g 18 + g 19 + g 20 + g 21 := by
  have h : (Finset.Icc 17 21 : Finset ℕ) = [17, 18, 19, 20, 21].toFinset := by decide
  have hnodup : ([17, 18, 19, 20, 21] : List ℕ).Nodup := by decide
  rw [h, List.sum_toFinset g hnodup]
  simp
  ring

/-- Against a dealer hand that has already busted, standing with any
non-busted hand wins with certainty. -/
lemma gsv_busted_dealer {dealer_hand : List ℕ} (hd : 21 < (hand_value dealer_hand).1)
    {p : List ℕ} (hp : (hand_value p).1 ≤ 21) :
    get_stand_value p dealer_hand = 1 := by
  have hdist : compute_dealer_probabilities dealer_hand
      = fun o => if o = DealerOutcome.bust then 1 else 0 := by
    rw [compute_dealer_probabilities_recursion, if_pos hd]
  simp only [get_stand_value, hdist]
  rw [if_neg (by omega)]
  rw [sum_Icc_17_21]
  simp only [show ∀ s : ℕ,
    (if DealerOutcome.score s = DealerOutcome.bust then (1:ℚ) else 0) = 0 from fun s => by simp,
    neg_zero, ite_self]
  norm_num

namespace expectimax_agent

lemma expLoopF_const {fuel : ℕ} {p dealer_hand : List ℕ} {depth : ℤ} {c : ℚ} :
    ∀ {l : List (ℕ × ℚ)} {acc : ℚ},
      (∀ rp ∈ l, maxValueF fuel (p ++ [rp.1]) dealer_hand depth = c) →
      expLoopF (fuel + 1) p dealer_hand depth acc l
        = acc + (l.map (fun rp => c * rp.2)).sum := by
  intro l
  induction l with
  | nil =>
    intro acc _
    rw [expLoopF]
    simp
  | cons rp rest ih =>
    intro acc h
    rcases rp with ⟨rank, prob⟩
    rw [expLoopF, ih (fun x hx => h x (List.mem_cons_of_mem _ hx))]
    have hc := h (rank, prob) (List.mem_cons_self _ _)
    simp only at hc
    rw [hc]
    simp only [List.map_cons, List.sum_cons]
    ring

lemma expLoopF_ge {fuel : ℕ} {p dealer_hand : List ℕ} {depth : ℤ} {bound : ℕ → ℚ} :
    ∀ {l : List (ℕ × ℚ)} {acc : ℚ},
      (∀ rp ∈ l, bound rp.1 ≤ maxValueF fuel (p ++ [rp.1]) dealer_hand depth) →
      (∀ rp ∈ l, 0 ≤ rp.2) →
      acc + (l.map (fun rp => bound rp.1 * rp.2)).sum
        ≤ expLoopF (fuel + 1) p dealer_hand depth acc l := by
  intro l
  induction l with
  | nil =>
    intro acc _ _
    rw [expLoopF]
    simp
  | cons rp rest ih =>
    intro acc h hpos
    rcases rp with ⟨rank, prob⟩
    rw [expLoopF]
    have hc := h (rank, prob) (List.mem_cons_self _ _)
    have hp := hpos (rank, prob) (List.mem_cons_self _ _)
    simp only at hc hp
    have hstep := @ih (acc + maxValueF fuel (p ++ [rank]) dealer_hand depth * prob)
      (fun x hx => h x (List.mem_cons_of_mem _ hx))
      (fun x hx => hpos x (List.mem_cons_of_mem _ hx))
    refine le_trans ?_ hstep
    simp only [List.map_cons, List.sum_cons]
    have hmul : bound rank * prob ≤ maxValueF fuel (p ++ [rank]) dealer_hand depth * prob :=
      mul_le_mul_of_nonneg_right hc hp
    linarith

end expectimax_agent

/-- C5 counterexample: at player total 11 with depth budget 1, Strategy A
returns "stand" against a standing dealer 20 (its worst-case hit value -1
ties the stand value -1 and the tie-break stands), and Strategy C returns
"stand" against an already busted dealer (every outcome wins, hit value 1
ties stand value 1).  The claim asserts both decide "hit". -/
theorem C5_counterexample_total11_stand :
    minimax.find_best_move ⟨[5, 6], [10, 10], "PLAYER", false, 0⟩ 1 = "stand"
    ∧ expectimax_agent.find_best_move ⟨[5, 6], [10, 10, 5], "PLAYER", false, 0⟩ 1 = "stand" := by
  have hd20 : compute_dealer_probabilities [10, 10]
      = fun o => if o = DealerOutcome.score 20 then 1 else 0 := by
    rw [compute_dealer_probabilities_recursion]
    rw [show (hand_value [10, 10]).1 = 20 from by decide]
    norm_num
  have hg1 : get_stand_value [5, 6] [10, 10] = -1 := by
    simp only [get_stand_value, hd20]
    rw [show (hand_value [5, 6]).1 = 11 from by decide]
    norm_num [sum_Icc_17_21, DealerOutcome.score.injEq]
    decide
  have hg2 : get_stand_value ([5, 6] ++ [1]) [10, 10] = -1 := by
    simp only [get_stand_value, hd20]
    rw [show (hand_value ([5, 6] ++ [1])).1 = 12 from by decide]
    norm_num [sum_Icc_17_21, DealerOutcome.score.injEq]
    decide
  constructor
  · show (if minimax.minLoopF 22 [5, 6] [10, 10] (1 - 1) XQ.pinf ranks13
            ≤ XQ.fin (get_stand_value [5, 6] [10, 10]) then "stand" else "hit") = "stand"
    rw [hg1]
    have hb : minimax.maxValueF 21 ([5, 6] ++ [1]) [10, 10] (1 - 1) = XQ.fin (-1) := by
      rw [minimax.maxValueF]
      rw [if_neg (show ¬ 21 < (hand_value ([5, 6] ++ [1])).1 from by decide)]
      rw [if_pos (show (1 : ℤ) - 1 = 0 from by decide)]
      rw [hg2]
    have hle : minimax.minLoopF 22 [5, 6] [10, 10] (1 - 1) XQ.pinf ranks13
        ≤ XQ.fin (-1) := by
      calc minimax.minLoopF 22 [5, 6] [10, 10] (1 - 1) XQ.pinf ranks13
          ≤ minimax.maxValueF 21 ([5, 6] ++ [1]) [10, 10] (1 - 1) :=
            minimax.minLoopF_le_branch [5, 6] [10, 10] (1 - 1) (by decide)
        _ = XQ.fin (-1) := hb
    rw [if_pos hle]
  · show (if expectimax_agent.expLoopF 22 [5, 6] [10, 10, 5] (1 - 1) 0
              expectimax_agent.CARD_PROBABILITIES
            ≤ get_stand_value [5, 6] [10, 10, 5] then "stand" else "hit") = "stand"
    have hst : get_stand_value [5, 6] [10, 10, 5] = 1 :=
      gsv_busted_dealer (by decide) (by decide)
    have hbr : ∀ rp ∈ expectimax_agent.CARD_PROBABILITIES,
        expectimax_agent.maxValueF 21 ([5, 6] ++ [rp.1]) [10, 10, 5] (1 - 1) = 1 := by
      intro rp _
      rw [expectimax_agent.maxValueF]
      have h21 : (hand_value ([5, 6] ++ [rp.1])).1 ≤ 21 :=
        total_append_le_21_of_le_11 (by decide) rp.1
      rw [if_neg (by omega), if_pos (show (1 : ℤ) - 1 = 0 from by decide)]
      exact gsv_busted_dealer (by decide) h21
    have hloop : expectimax_agent.expLoopF 22 [5, 6] [10, 10, 5] (1 - 1) 0
        expectimax_agent.CARD_PROBABILITIES
        = 0 + (expectimax_agent.CARD_PROBABILITIES.map (fun rp => (1 : ℚ) * rp.2)).sum := by
      exact expectimax_agent.expLoopF_const hbr
    have hCP : expectimax_agent.CARD_PROBABILITIES
        = [(1, 1/13), (2, 1/13), (3, 1/13), (4, 1/13), (5, 1/13), (6, 1/13), (7, 1/13),
           (8, 1/13), (9, 1/13), (10, 1/13), (11, 1/13), (12, 1/13), (13, 1/13)] := rfl
    rw [hst, hloop, hCP]
    norm_num

/-- C5 (amended): at player total 11 (no single draw can bust) and depth
budget at least 1, Strategies A and B evaluate hitting as at least as good
as standing (so hitting is never worst-case worse), and Strategy C decides
"hit" provided the dealer hand has not already busted.  A and B may still
return "stand" because exact ties favour standing, and Strategy C also
stands when the dealer has already busted (both options are then worth +1);
the original claim that all three always decide "hit" is refuted by
`C5_counterexample_total11_stand`. -/
theorem C5_amended_total11 (state : GameState) (max_depth : ℤ)
    (hp : (hand_value state.player).1 = 11) (hdep : 1 ≤ max_depth) :
    (XQ.fin (get_stand_value state.player state.dealer)
        ≤ minimax.min_value state.player state.dealer (max_depth - 1))
    ∧ (XQ.fin (get_stand_value state.player state.dealer)
        ≤ minimax_agent.min_value state.player state.dealer (max_depth - 1)
            (max XQ.ninf (XQ.fin (get_stand_value state.player state.dealer))) XQ.pinf)
    ∧ ((hand_value state.dealer).1 ≤ 21 →
        expectimax_agent.find_best_move state max_depth = "hit") := by
  set p := state.player
  set d := state.dealer
  set g := get_stand_value p d with hg
  have hbranch_total : ∀ r : ℕ, (hand_value (p ++ [r])).1 = 11 + cardMin r :=
    fun r => total11_append hp r
  have hbranch_le21 : ∀ r : ℕ, (hand_value (p ++ [r])).1 ≤ 21 := by
    intro r
    have := cardMin_le_10 r
    rw [hbranch_total r]
    omega
  have hmono : ∀ r : ℕ, g ≤ get_stand_value (p ++ [r]) d := by
    intro r
    apply get_stand_value_mono d _ (hbranch_le21 r)
    rw [hp, hbranch_total r]
    have := one_le_cardMin r
    omega
  refine ⟨?_, ?_, ?_⟩
  · show XQ.fin g ≤ minimax.minLoopF (21 + 1) p d (max_depth - 1) XQ.pinf ranks13
    apply minimax.minLoopF_lower p d (max_depth - 1) _ (XQ.le_pinf _)
    intro r _
    calc XQ.fin g ≤ XQ.fin (get_stand_value (p ++ [r]) d) := XQ.fin_le_fin.mpr (hmono r)
      _ ≤ minimax.maxValueF 21 (p ++ [r]) d (max_depth - 1) :=
          maxValueA_ge_stand (by have := hbranch_le21 r; omega)
  · show XQ.fin g ≤ minimax_agent.minLoopF (21 + 1) p d (max_depth - 1)
      (max XQ.ninf (XQ.fin g)) XQ.pinf XQ.pinf ranks13
    apply minimax_agent.minLoopF_lowerB p d (max_depth - 1) _ (XQ.le_pinf _)
    intro r _ a b
    calc XQ.fin g ≤ XQ.fin (get_stand_value (p ++ [r]) d) := XQ.fin_le_fin.mpr (hmono r)
      _ ≤ minimax_agent.maxValueF 21 (p ++ [r]) d (max_depth - 1) a b :=
          maxValueB_ge_stand (by have := hbranch_le21 r; omega)
  · intro hdlr
    show (if expectimax_agent.expLoopF 22 p d (max_depth - 1) 0
              expectimax_agent.CARD_PROBABILITIES ≤ g then "stand" else "hit") = "hit"
    set M := scoresMass (compute_dealer_probabilities d) with hM
    have hMpos : 0 < M := compute_dealer_probabilities_scoresMass_pos hdlr
    have hb : ∀ rp ∈ expectimax_agent.CARD_PROBABILITIES,
        (if rp.1 = 13 then g + M else g)
          ≤ expectimax_agent.maxValueF 21 (p ++ [rp.1]) d (max_depth - 1) := by
      intro rp _
      have hnb : ¬ 21 < (hand_value (p ++ [rp.1])).1 := by
        have := hbranch_le21 rp.1
        omega
      by_cases h13 : rp.1 = 13
      · rw [if_pos h13, h13]
        have htot13 : (hand_value (p ++ [13])).1 = 21 := by
          rw [hbranch_total 13]
          decide
        calc g + M ≤ get_stand_value (p ++ [13]) d :=
              get_stand_value_21_gap d htot13 (by omega)
          _ ≤ expectimax_agent.maxValueF 21 (p ++ [13]) d (max_depth - 1) :=
              maxValueC_ge_stand (by rw [htot13]; omega)
      · rw [if_neg h13]
        calc g ≤ get_stand_value (p ++ [rp.1]) d := hmono rp.1
          _ ≤ expectimax_agent.maxValueF 21 (p ++ [rp.1]) d (max_depth - 1) :=
              maxValueC_ge_stand hnb
    have hpos : ∀ rp ∈ expectimax_agent.CARD_PROBABILITIES, (0:ℚ) ≤ rp.2 := by
      intro rp hmem
      obtain ⟨r, -, rfl⟩ := List.mem_map.mp hmem
      norm_num
    have hge := @expectimax_agent.expLoopF_ge 21 p d (max_depth - 1)
      (fun r => if r = 13 then g + M else g) expectimax_agent.CARD_PROBABILITIES 0 hb hpos
    have hsum : (0:ℚ) + (expectimax_agent.CARD_PROBABILITIES.map
        (fun rp => (if rp.1 = 13 then g + M else g) * rp.2)).sum = g + M * (1/13) := by
      have hCP : expectimax_agent.CARD_PROBABILITIES
          = [(1, 1/13), (2, 1/13), (3, 1/13), (4, 1/13), (5, 1/13), (6, 1/13), (7, 1/13),
             (8, 1/13), (9, 1/13), (10, 1/13), (11, 1/13), (12, 1/13), (13, 1/13)] := rfl
      rw [hCP]
      norm_num
      ring
    rw [hsum] at hge
    have hlt : g < expectimax_agent.expLoopF (21 + 1) p d (max_depth - 1) 0
        expectimax_agent.CARD_PROBABILITIES := by
      have : g < g + M * (1/13) := by linarith
      linarith
    rw [if_neg (not_le.mpr hlt)]

/-- Witness for C5 (amended) at player [5,6] (total 11) against dealer
[10,6] (total 16) with depth 1. -/
theorem C5_amended_witness :
    (hand_value [5, 6]).1 = 11 ∧ (1:ℤ) ≤ 1 ∧ (hand_value [10, 6]).1 ≤ 21
    ∧ expectimax_agent.find_best_move ⟨[5, 6], [10, 6], "PLAYER", false, 0⟩ 1 = "hit"
    ∧ XQ.fin (get_stand_value [5, 6] [10, 6])
        ≤ minimax.min_value [5, 6] [10, 6] (1 - 1) :=
  ⟨by decide, by decide, by decide,
   (C5_amended_total11 ⟨[5, 6], [10, 6], "PLAYER", false, 0⟩ 1 (by decide) (by decide)).2.2
     (by decide),
   (C5_amended_total11 ⟨[5, 6], [10, 6], "PLAYER", false, 0⟩ 1 (by decide) (by decide)).1⟩

/-- C2: `compute_dealer_probabilities` satisfies the recursive
specification: a busted dealer hand yields the unit distribution on "bust",
a standing total in [17, 21] yields the unit distribution on that total, and
a drawing total below 17 yields the 1/13-weighted sum over the 13 possible
next ranks of the distributions of the extended hands, entries with the same
outcome merged by adding probabilities. -/
theorem C2_dealer_distribution_recursion (hand : List ℕ) :
    compute_dealer_probabilities hand
      = if 21 < (hand_value hand).1 then
          (fun o => if o = DealerOutcome.bust then 1 else 0)
        else if 17 ≤ (hand_value hand).1 then
          (fun o => if o = DealerOutcome.score (hand_value hand).1 then 1 else 0)
        else
          fun o => ∑ r ∈ Finset.Icc 1 13,
            (1 / 13) * compute_dealer_probabilities (hand ++ [r]) o :=
  compute_dealer_probabilities_recursion hand

/-- C3: `get_stand_value` returns -1 for every busted player hand; otherwise
it is the expectation over the dealer distribution with weight +1 on "bust"
and on every dealer score below the player total, -1 on every dealer score
above it, and 0 on a push; and the value always lies in [-1, 1]. -/
theorem C3_stand_value_expectation (player_hand dealer_hand : List ℕ) :
    (21 < (hand_value player_hand).1 →
      get_stand_value player_hand dealer_hand = -1)
    ∧ ((hand_value player_hand).1 ≤ 21 →
      get_stand_value player_hand dealer_hand
        = compute_dealer_probabilities dealer_hand DealerOutcome.bust
          + ∑ s ∈ Finset.Icc 17 21,
              (if s < (hand_value player_hand).1 then (1:ℚ)
               else if (hand_value player_hand).1 < s then -1 else 0)
                * compute_dealer_probabilities dealer_hand (DealerOutcome.score s))
    ∧ -1 ≤ get_stand_value player_hand dealer_hand
    ∧ get_stand_value player_hand dealer_hand ≤ 1 := by
  refine ⟨get_stand_value_bust dealer_hand, ?_,
    neg_one_le_get_stand_value player_hand dealer_hand,
    get_stand_value_le_one player_hand dealer_hand⟩
  intro hle
  unfold get_stand_value
  rw [if_neg (by omega)]
  simp only [mul_one]
  congr 1
  apply Finset.sum_congr rfl
  intro s _
  split_ifs <;> ring

/-- Witness for C3: the busted branch at player [10,10,5], and the
expectation branch plus bounds at player [10,10] against dealer [10,8]. -/
theorem C3_witness :
    (21 < (hand_value [10, 10, 5]).1 ∧ get_stand_value [10, 10, 5] [10, 8] = -1)
    ∧ ((hand_value [10, 10]).1 ≤ 21 ∧
        get_stand_value [10, 10] [10, 8]
          = compute_dealer_probabilities [10, 8] DealerOutcome.bust
            + ∑ s ∈ Finset.Icc 17 21,
                (if s < (hand_value [10, 10]).1 then (1:ℚ)
                 else if (hand_value [10, 10]).1 < s then -1 else 0)
                  * compute_dealer_probabilities [10, 8] (DealerOutcome.score s))
    ∧ -1 ≤ get_stand_value [10, 10] [10, 8]
    ∧ get_stand_value [10, 10] [10, 8] ≤ 1 :=
  ⟨⟨by decide, (C3_stand_value_expectation [10, 10, 5] [10, 8]).1 (by decide)⟩,
   ⟨by decide, (C3_stand_value_expectation [10, 10] [10, 8]).2.1 (by decide)⟩,
   (C3_stand_value_expectation [10, 10] [10, 8]).2.2.1,
   (C3_stand_value_expectation [10, 10] [10, 8]).2.2.2⟩

lemma compute_dealer_probabilities_perm {p q : List ℕ} (h : List.Perm p q) :
    compute_dealer_probabilities p = compute_dealer_probabilities q := by
  unfold compute_dealer_probabilities
  rw [dealerProbsF_perm h]

/-- C4: `compute_dealer_probabilities` is invariant under permutation of the
dealer hand — the distribution depends only on the multiset of ranks. -/
theorem C4_permutation_invariance (h1 h2 : List ℕ) (hperm : List.Perm h1 h2) :
    compute_dealer_probabilities h1 = compute_dealer_probabilities h2 :=
  compute_dealer_probabilities_perm hperm

/-- Witness for C4: the spec's own instance `outcomes([10,6]) ==
outcomes([6,10])`. -/
theorem C4_witness :
    List.Perm [10, 6] [6, 10]
    ∧ compute_dealer_probabilities [10, 6] = compute_dealer_probabilities [6, 10] :=
  ⟨by decide, C4_permutation_invariance [10, 6] [6, 10] (by decide)⟩

/-- C8: the dealer-probability recursion terminates for every hand: with
fuel exceeding the distance from the hand's minimal total to the drawing
threshold 17 the fuel never runs out (every appended card raises the minimal
total by at least 1), so the canonical fuel 18 always succeeds. -/
theorem C8_dealer_recursion_terminates (hand : List ℕ) :
    (dealerProbsF 18 hand).isSome = true
    ∧ ∀ fuel : ℕ, dealerFuelOk fuel hand → (dealerProbsF fuel hand).isSome = true :=
  ⟨dealerProbsF_isSome (dealerFuelOk_18 hand), fun _ h => dealerProbsF_isSome h⟩

/-- Witness for C8: fuel 2 suffices for the drawing hand [10,6]. -/
theorem C8_witness :
    dealerFuelOk 2 [10, 6] ∧ (dealerProbsF 2 [10, 6]).isSome = true :=
  ⟨by decide, (C8_dealer_recursion_terminates [10, 6]).2 2 (by decide)⟩

/-- Totals achievable from a hand by counting each ace as 11 or 1 (the
spec's reading): the minimal total plus 10 for every ace promoted to 11. -/
def specTotals (cards : List ℕ) : Finset ℕ :=
  (Finset.range (acesCount cards + 1)).image (fun k => minTotal cards + 10 * k)

/-- The spec's definition of the hand total: the maximum achievable value
not exceeding 21, or the minimal (busting) achievable value when every
achievable value exceeds 21. -/
def specHandTotal (cards : List ℕ) : ℕ :=
  WithBot.unbot' (WithTop.untop' 0 (specTotals cards).min)
    (((specTotals cards).filter (fun t => t ≤ 21)).max)

lemma mem_specTotals {cards : List ℕ} {t : ℕ} :
    t ∈ specTotals cards ↔ ∃ k ≤ acesCount cards, t = minTotal cards + 10 * k := by
  unfold specTotals
  rw [Finset.mem_image]
  constructor
  · rintro ⟨k, hk, rfl⟩
    exact ⟨k, Nat.lt_succ_iff.mp (Finset.mem_range.mp hk), rfl⟩
  · rintro ⟨k, hk, rfl⟩
    exact ⟨k, Finset.mem_range.mpr (by omega), rfl⟩

/-- C9: `hand_value` computes the spec's total — the maximum ace-assignment
value not exceeding 21, or the minimal busting value when even all aces as 1
exceed 21 — and `is_soft` holds exactly when an ace is present and still
counted as 11 (the total exceeds the minimal total by 10, i.e. the number of
demotions performed is strictly below the number of aces). -/
theorem C9_hand_value_spec (cards : List ℕ) :
    (hand_value cards).1 = specHandTotal cards
    ∧ ((hand_value cards).2 = true
        ↔ 0 < acesCount cards ∧ (hand_value cards).1 = minTotal cards + 10) := by
  have h1 : (hand_value cards).1
      = if softCond cards then minTotal cards + 10 else minTotal cards := by
    rw [hand_value_char]
  have h2 : (hand_value cards).2 = decide (softCond cards) := by
    rw [hand_value_char]
  have hacmt := acesCount_le_minTotal cards
  have hmem0 : minTotal cards ∈ specTotals cards :=
    mem_specTotals.mpr ⟨0, Nat.zero_le _, by ring⟩
  constructor
  · rw [h1]
    unfold specHandTotal
    by_cases hs : softCond cards
    · rw [if_pos hs]
      have hmem10 : minTotal cards + 10 ∈ (specTotals cards).filter (fun t => t ≤ 21) := by
        rw [Finset.mem_filter]
        refine ⟨mem_specTotals.mpr ⟨1, hs.1, by ring⟩, hs.2⟩
      have hub : ∀ b ∈ (specTotals cards).filter (fun t => t ≤ 21),
          (b : WithBot ℕ) ≤ (↑(minTotal cards + 10) : WithBot ℕ) := by
        intro b hb
        rw [Finset.mem_filter] at hb
        obtain ⟨hbmem, hb21⟩ := hb
        obtain ⟨k, hk, rfl⟩ := mem_specTotals.mp hbmem
        have hnat : minTotal cards + 10 * k ≤ minTotal cards + 10 := by
          rcases Nat.lt_or_ge k 2 with hk2 | hk2
          · omega
          · omega
        exact_mod_cast hnat
      have hmax : ((specTotals cards).filter (fun t => t ≤ 21)).max
          = ((minTotal cards + 10 : ℕ) : WithBot ℕ) :=
        le_antisymm (Finset.max_le hub) (Finset.le_max hmem10)
      rw [hmax]
      rfl
    · rw [if_neg hs]
      have hcase : acesCount cards = 0 ∨ 21 < minTotal cards + 10 := by
        by_cases h0 : 0 < acesCount cards
        · right
          by_contra hc
          exact hs ⟨h0, by omega⟩
        · left
          omega
      by_cases hmt : minTotal cards ≤ 21
      · have hmemf : minTotal cards ∈ (specTotals cards).filter (fun t => t ≤ 21) :=
          Finset.mem_filter.mpr ⟨hmem0, hmt⟩
        have hub : ∀ b ∈ (specTotals cards).filter (fun t => t ≤ 21),
            (b : WithBot ℕ) ≤ (↑(minTotal cards) : WithBot ℕ) := by
          intro b hb
          rw [Finset.mem_filter] at hb
          obtain ⟨hbmem, hb21⟩ := hb
          obtain ⟨k, hk, rfl⟩ := mem_specTotals.mp hbmem
          have hnat : minTotal cards + 10 * k ≤ minTotal cards := by
            rcases hcase with hc | hc
            · omega
            · omega
          exact_mod_cast hnat
        have hmax : ((specTotals cards).filter (fun t => t ≤ 21)).max
            = ((minTotal cards : ℕ) : WithBot ℕ) :=
          le_antisymm (Finset.max_le hub) (Finset.le_max hmemf)
        rw [hmax]
        rfl
      · have hempty : (specTotals cards).filter (fun t => t ≤ 21) = ∅ := by
          rw [Finset.filter_eq_empty_iff]
          intro x hx
          obtain ⟨k, hk, rfl⟩ := mem_specTotals.mp hx
          omega
        rw [hempty]
        have hminlb : ∀ a : ℕ, a ∈ specTotals cards →
            ((minTotal cards : ℕ) : WithTop ℕ) ≤ a := by
          intro a ha
          obtain ⟨k, hk, rfl⟩ := mem_specTotals.mp ha
          have hnat : minTotal cards ≤ minTotal cards + 10 * k := by omega
          exact_mod_cast hnat
        have hmin : (specTotals cards).min = ((minTotal cards : ℕ) : WithTop ℕ) :=
          le_antisymm (Finset.min_le hmem0) (Finset.le_min hminlb)
        rw [Finset.max_empty, hmin]
        rfl
  · rw [h1, h2]
    by_cases hs : softCond cards
    · simp only [if_pos hs, decide_eq_true_eq]
      constructor
      · intro _
        exact ⟨hs.1, trivial⟩
      · intro _
        exact hs
    · simp only [if_neg hs, decide_eq_true_eq]
      constructor
      · intro hc
        exact absurd hc hs
      · rintro ⟨h0, hc⟩
        exact absurd ⟨h0, by omega⟩ hs

/-! ### The shared memoization cache, modelled explicitly (src/agents/evaluation.py)

The Python module holds one process-wide mutable dict `dealer_cache`; the
model threads it through the computation as an explicit association list
from sorted-rank keys to distributions.  `ValidCache` says every entry holds
the distribution of its key, which is an invariant of every real execution
(entries are only ever written by `compute_dealer_probabilities` itself). -/

/-- The `dealer_cache` dict: sorted-rank key to distribution. -/
abbrev Cache := List (List ℕ × ProbDist)

/-- `hand_key in dealer_cache` / `dealer_cache[hand_key]`. -/
def cacheLookup (c : Cache) (key : List ℕ) : Option ProbDist :=
  (c.find? (fun e => decide (e.1 = key))).map Prod.snd

/-- Every cache entry stores the distribution of its key. -/
def ValidCache (c : Cache) : Prop :=
  ∀ e ∈ c, e.2 = compute_dealer_probabilities e.1

mutual
/-- `compute_dealer_probabilities` with the `dealer_cache` threaded
explicitly: look up the sorted key, on a miss compute as before and store the
result (only the recursive case writes, as in the source). -/
def dealerProbsCF : ℕ → List ℕ → Cache → Option (ProbDist × Cache)
  | 0, _, _ => none
  | fuel + 1, dealer_hand, cache =>
    let hand_key := dealer_hand.insertionSort (· ≤ ·)
    match cacheLookup cache hand_key with
    | some d => some (d, cache)
    | none =>
      let total := (hand_value dealer_hand).1
      if 21 < total then
        some ((fun o => if o = DealerOutcome.bust then 1 else 0), cache)
      else if 17 ≤ total then
        some ((fun o => if o = DealerOutcome.score total then 1 else 0), cache)
      else
        match dealerBranchesCF fuel dealer_hand cache ranks13 with
        | none => none
        | some (ds, cache1) =>
          some ((fun o => (ds.map (fun d => d o * (1 / 13))).sum),
            (hand_key, fun o => (ds.map (fun d => d o * (1 / 13))).sum) :: cache1)
  termination_by fuel _ _ => (fuel, 0, 0)

/-- The rank loop of the cached recursion, threading the cache. -/
def dealerBranchesCF : ℕ → List ℕ → Cache → List ℕ → Option (List ProbDist × Cache)
  | _, _, cache, [] => some ([], cache)
  | fuel, dealer_hand, cache, r :: rs =>
    match dealerProbsCF fuel (dealer_hand ++ [r]) cache with
    | none => none
    | some (d, cache1) =>
      match dealerBranchesCF fuel dealer_hand cache1 rs with
      | none => none
      | some (ds, cache2) => some (d :: ds, cache2)
  termination_by fuel _ _ rs => (fuel, 1, rs.length)
end

lemma cacheLookup_valid {c : Cache} (hv : ValidCache c) {key : List ℕ} {d : ProbDist}
    (h : cacheLookup c key = some d) : d = compute_dealer_probabilities key := by
  unfold cacheLookup at h
  cases hf : c.find? (fun e => decide (e.1 = key)) with
  | none =>
    rw [hf] at h
    simp at h
  | some e =>
    rw [hf] at h
    simp at h
    have hmem : e ∈ c := List.mem_of_find?_eq_some hf
    have hkey : e.1 = key := of_decide_eq_true (List.find?_some (p := fun e : List ℕ × ProbDist => decide (e.1 = key)) hf)
    rw [← h, hv e hmem, hkey]

lemma compute_dealer_probabilities_sortKey (hand : List ℕ) :
    compute_dealer_probabilities (hand.insertionSort (· ≤ ·))
      = compute_dealer_probabilities hand :=
  compute_dealer_probabilities_perm (List.perm_insertionSort _ hand)

lemma branch_combine_eq {hand : List ℕ} (hlt : (hand_value hand).1 < 17) :
    (fun o => (((ranks13.map (fun r => compute_dealer_probabilities (hand ++ [r]))).map
        (fun d => d o * (1 / 13)))).sum)
      = compute_dealer_probabilities hand := by
  rw [compute_dealer_probabilities_recursion hand, if_neg (by omega), if_neg (by omega)]
  funext o
  rw [sum_Icc_1_13_eq_ranks13, List.map_map]
  congr 1
  apply List.map_congr_left
  intro r _
  simp only [Function.comp]
  ring

/-- The cached dealer computation returns exactly the pure distribution and
preserves cache validity: memoization never changes the answer. -/
lemma dealerProbsCF_correct {fuel : ℕ} :
    ∀ {hand : List ℕ} {cache : Cache}, ValidCache cache → dealerFuelOk fuel hand →
      ∃ cache', dealerProbsCF fuel hand cache
          = some (compute_dealer_probabilities hand, cache') ∧ ValidCache cache' := by
  induction fuel using Nat.strong_induction_on with
  | _ fuel ih =>
    intro hand cache hv hfo
    match fuel with
    | 0 =>
      unfold dealerFuelOk at hfo
      omega
    | fuel + 1 =>
      rw [dealerProbsCF]
      cases hlk : cacheLookup cache (hand.insertionSort (· ≤ ·)) with
      | some d =>
        refine ⟨cache, ?_, hv⟩
        show some (d, cache) = some (compute_dealer_probabilities hand, cache)
        rw [cacheLookup_valid hv hlk, compute_dealer_probabilities_sortKey]
      | none =>
        by_cases h21 : 21 < (hand_value hand).1
        · rw [if_pos h21]
          refine ⟨cache, ?_, hv⟩
          rw [compute_dealer_probabilities_recursion hand, if_pos h21]
        · rw [if_neg h21]
          by_cases h17 : 17 ≤ (hand_value hand).1
          · rw [if_pos h17]
            refine ⟨cache, ?_, hv⟩
            rw [compute_dealer_probabilities_recursion hand, if_neg h21, if_pos h17]
          · rw [if_neg h17]
            have hlt : (hand_value hand).1 < 17 := by omega
            have hbranches : ∀ (rs : List ℕ), (∀ r ∈ rs, dealerFuelOk fuel (hand ++ [r])) →
                ∀ (c : Cache), ValidCache c →
                ∃ c', dealerBranchesCF fuel hand c rs
                    = some (rs.map (fun r => compute_dealer_probabilities (hand ++ [r])), c')
                  ∧ ValidCache c' := by
              intro rs
              induction rs with
              | nil =>
                intro _ c hc
                exact ⟨c, by rw [dealerBranchesCF]; simp, hc⟩
              | cons r rest ihr =>
                intro hro c hc
                obtain ⟨c1, hc1eq, hc1v⟩ :=
                  ih fuel (Nat.lt_succ_self fuel) hc (hro r (List.mem_cons_self r rest))
                obtain ⟨c2, hc2eq, hc2v⟩ :=
                  ihr (fun x hx => hro x (List.mem_cons_of_mem r hx)) c1 hc1v
                refine ⟨c2, ?_, hc2v⟩
                simp only [dealerBranchesCF, hc1eq, hc2eq, List.map_cons]
            obtain ⟨c', hceq, hcv⟩ := hbranches ranks13
              (fun r _ => dealerFuelOk_branch r hfo hlt) cache hv
            rw [hceq]
            refine ⟨(hand.insertionSort (· ≤ ·),
              fun o => (((ranks13.map (fun r => compute_dealer_probabilities (hand ++ [r]))).map
                (fun d => d o * (1 / 13)))).sum) :: c', ?_, ?_⟩
            · show some
                ((fun o => (((ranks13.map (fun r => compute_dealer_probabilities (hand ++ [r]))).map
                    (fun d => d o * (1 / 13)))).sum),
                  (hand.insertionSort (· ≤ ·),
                    fun o => (((ranks13.map (fun r => compute_dealer_probabilities (hand ++ [r]))).map
                      (fun d => d o * (1 / 13)))).sum) :: c')
                = some (compute_dealer_probabilities hand,
                    (hand.insertionSort (· ≤ ·),
                      fun o => (((ranks13.map
                        (fun r => compute_dealer_probabilities (hand ++ [r]))).map
                          (fun d => d o * (1 / 13)))).sum) :: c')
              rw [branch_combine_eq hlt]
            · intro e he
              rcases List.mem_cons.mp he with he1 | he2
              · subst he1
                simp only
                rw [branch_combine_eq hlt, compute_dealer_probabilities_sortKey]
              · exact hcv e he2

/-- `get_stand_value` with the cache threaded explicitly. -/
def get_stand_value_cached (player_hand dealer_hand : List ℕ) (cache : Cache) : ℚ × Cache :=
  let player_total := (hand_value player_hand).1
  if 21 < player_total then (-1, cache)
  else
    match dealerProbsCF 18 dealer_hand cache with
    | none => (0, cache)
    | some (dealer_final_probs, cache1) =>
      (dealer_final_probs DealerOutcome.bust * 1
        + ∑ s ∈ Finset.Icc 17 21,
            (if player_total > s then dealer_final_probs (DealerOutcome.score s) * 1
             else if player_total < s then dealer_final_probs (DealerOutcome.score s) * (-1)
             else dealer_final_probs (DealerOutcome.score s) * 0), cache1)

lemma get_stand_value_cached_correct {p d : List ℕ} {c : Cache} (hv : ValidCache c) :
    ∃ c', get_stand_value_cached p d c = (get_stand_value p d, c') ∧ ValidCache c' := by
  obtain ⟨c', hc, hcv⟩ := dealerProbsCF_correct hv (dealerFuelOk_18 d)
  simp only [get_stand_value_cached, get_stand_value]
  by_cases h : 21 < (hand_value p).1
  · rw [if_pos h, if_pos h]
    exact ⟨c, rfl, hv⟩
  · rw [if_neg h, if_neg h, hc]
    exact ⟨c', rfl, hcv⟩

mutual
/-- Strategy A's `_max_value` with the cache threaded explicitly through
every `get_stand_value` call. -/
def maxValueCachedF : ℕ → List ℕ → List ℕ → ℤ → Cache → XQ × Cache
  | fuel, player_hand, dealer_hand, depth, cache =>
    if 21 < (hand_value player_hand).1 then (XQ.fin (-1), cache)
    else if depth = 0 then
      let sv := get_stand_value_cached player_hand dealer_hand cache
      (XQ.fin sv.1, sv.2)
    else
      let sv := get_stand_value_cached player_hand dealer_hand cache
      let hit := minLoopCachedF fuel player_hand dealer_hand (depth - 1) XQ.pinf sv.2 ranks13
      (max (XQ.fin sv.1) hit.1, hit.2)
  termination_by fuel _ _ _ _ => (fuel, 1, 0)

/-- Strategy A's `_min_value` loop with the cache threaded explicitly. -/
def minLoopCachedF : ℕ → List ℕ → List ℕ → ℤ → XQ → Cache → List ℕ → XQ × Cache
  | _, _, _, _, min_eval, cache, [] => (min_eval, cache)
  | 0, _, _, _, min_eval, cache, _ :: _ => (min_eval, cache)
  | fuel + 1, player_hand, dealer_hand, depth, min_eval, cache, r :: rs =>
    let ev := maxValueCachedF fuel (player_hand ++ [r]) dealer_hand depth cache
    minLoopCachedF (fuel + 1) player_hand dealer_hand depth (min min_eval ev.1) ev.2 rs
  termination_by fuel _ _ _ _ _ rs => (fuel, 0, rs.length)
end

/-- Strategy A's `find_best_move` with the cache threaded explicitly; the
returned pair carries the cache left behind for the next call. -/
def find_best_move_cached (state : GameState) (max_depth : ℤ) (cache : Cache) :
    String × Cache :=
  let sv := get_stand_value_cached state.player state.dealer cache
  let hit := minLoopCachedF 22 state.player state.dealer (max_depth - 1) XQ.pinf sv.2 ranks13
  (if hit.1 ≤ XQ.fin sv.1 then "stand" else "hit", hit.2)

lemma maxValueCachedF_correct {fuel : ℕ} :
    ∀ {p d : List ℕ} {depth : ℤ} {c : Cache}, ValidCache c →
      ∃ c', maxValueCachedF fuel p d depth c = (minimax.maxValueF fuel p d depth, c')
        ∧ ValidCache c' := by
  induction fuel using Nat.strong_induction_on with
  | _ fuel ih =>
    intro p d depth c hvc
    rw [maxValueCachedF, minimax.maxValueF]
    by_cases hb : 21 < (hand_value p).1
    · rw [if_pos hb, if_pos hb]
      exact ⟨c, rfl, hvc⟩
    · rw [if_neg hb, if_neg hb]
      obtain ⟨c1, hsv, hv1⟩ := get_stand_value_cached_correct (p := p) (d := d) hvc
      by_cases hd : depth = 0
      · rw [if_pos hd, if_pos hd, hsv]
        exact ⟨c1, rfl, hv1⟩
      · rw [if_neg hd, if_neg hd, hsv]
        have hloop : ∀ (rs : List ℕ) (acc : XQ) (cc : Cache), ValidCache cc →
            ∃ c2, minLoopCachedF fuel p d (depth - 1) acc cc rs
                = (minimax.minLoopF fuel p d (depth - 1) acc rs, c2) ∧ ValidCache c2 := by
          intro rs
          induction rs with
          | nil =>
            intro acc cc hcc
            refine ⟨cc, ?_, hcc⟩
            rw [minLoopCachedF, minimax.minLoopF]
          | cons r rest ihr =>
            intro acc cc hcc
            match fuel, ih with
            | 0, _ =>
              refine ⟨cc, ?_, hcc⟩
              rw [minLoopCachedF, minimax.minLoopF]
            | g + 1, ih =>
              obtain ⟨cb, hev, hvb⟩ :=
                @ih g (Nat.lt_succ_self g) (p ++ [r]) d (depth - 1) cc hcc
              obtain ⟨c2, hrest, hv2⟩ := ihr (min acc (minimax.maxValueF g (p ++ [r]) d (depth - 1))) cb hvb
              refine ⟨c2, ?_, hv2⟩
              rw [minLoopCachedF, minimax.minLoopF, hev]
              exact hrest
        obtain ⟨c2, hl, hv2⟩ := hloop ranks13 XQ.pinf c1 hv1
        refine ⟨c2, ?_, hv2⟩
        show (max (XQ.fin (get_stand_value p d))
                (minLoopCachedF fuel p d (depth - 1) XQ.pinf c1 ranks13).1,
              (minLoopCachedF fuel p d (depth - 1) XQ.pinf c1 ranks13).2) = _
        rw [hl]

lemma minLoopCachedF_correct :
    ∀ (fuel : ℕ) (rs : List ℕ) {p d : List ℕ} {depth : ℤ} {acc : XQ} {c : Cache},
      ValidCache c →
      ∃ c', minLoopCachedF fuel p d depth acc c rs
          = (minimax.minLoopF fuel p d depth acc rs, c') ∧ ValidCache c' := by
  intro fuel
  cases fuel with
  | zero =>
    intro rs
    cases rs with
    | nil =>
      intro p d depth acc c hc
      refine ⟨c, ?_, hc⟩
      rw [minLoopCachedF, minimax.minLoopF]
    | cons r rest =>
      intro p d depth acc c hc
      refine ⟨c, ?_, hc⟩
      rw [minLoopCachedF, minimax.minLoopF]
  | succ g =>
    intro rs
    induction rs with
    | nil =>
      intro p d depth acc c hc
      refine ⟨c, ?_, hc⟩
      rw [minLoopCachedF, minimax.minLoopF]
    | cons r rest ihr =>
      intro p d depth acc c hc
      obtain ⟨cb, hev, hvb⟩ := @maxValueCachedF_correct g (p ++ [r]) d depth c hc
      obtain ⟨c2, hrest, hv2⟩ :=
        @ihr p d depth (min acc (minimax.maxValueF g (p ++ [r]) d depth)) cb hvb
      refine ⟨c2, ?_, hv2⟩
      rw [minLoopCachedF, minimax.minLoopF, hev]
      exact hrest

lemma find_best_move_cached_correct (state : GameState) (max_depth : ℤ) {c : Cache}
    (hv : ValidCache c) :
    ∃ c', find_best_move_cached state max_depth c
        = (minimax.find_best_move state max_depth, c') ∧ ValidCache c' := by
  obtain ⟨c1, hsv, hv1⟩ :=
    get_stand_value_cached_correct (p := state.player) (d := state.dealer) hv
  have hsv2 : (get_stand_value_cached state.player state.dealer c).2 = c1 := by rw [hsv]
  have hsv1 : (get_stand_value_cached state.player state.dealer c).1
      = get_stand_value state.player state.dealer := by rw [hsv]
  obtain ⟨c2, hl, hv2⟩ :=
    @minLoopCachedF_correct 22 ranks13 state.player state.dealer (max_depth - 1) XQ.pinf c1 hv1
  have hl1 : (minLoopCachedF 22 state.player state.dealer (max_depth - 1) XQ.pinf c1 ranks13).1
      = minimax.minLoopF 22 state.player state.dealer (max_depth - 1) XQ.pinf ranks13 := by
    rw [hl]
  have hl2 : (minLoopCachedF 22 state.player state.dealer (max_depth - 1) XQ.pinf c1 ranks13).2
      = c2 := by rw [hl]
  refine ⟨c2, ?_, hv2⟩
  show (if (minLoopCachedF 22 state.player state.dealer (max_depth - 1) XQ.pinf
          (get_stand_value_cached state.player state.dealer c).2 ranks13).1 ≤
        XQ.fin (get_stand_value_cached state.player state.dealer c).1 then "stand" else "hit",
      (minLoopCachedF 22 state.player state.dealer (max_depth - 1) XQ.pinf
          (get_stand_value_cached state.player state.dealer c).2 ranks13).2) = _
  rw [hsv2, hl1, hl2, hsv1]
  rfl

/-- C10: the decision of `find_best_move` does not depend on the contents of
the shared `dealer_cache`: for any two valid caches (caches whose every entry
records the true dealer distribution of its key, the only caches the program
can ever build), the cached computation returns the same action, and that
action equals the cache-free decision. The memoization changes only the cost
of the computation, never its answer. -/
theorem C10_cache_never_changes_answer (state : GameState) (max_depth : ℤ)
    (c₁ c₂ : Cache) (h₁ : ValidCache c₁) (h₂ : ValidCache c₂) :
    (find_best_move_cached state max_depth c₁).1
      = (find_best_move_cached state max_depth c₂).1
    ∧ (find_best_move_cached state max_depth c₁).1
      = minimax.find_best_move state max_depth := by
  obtain ⟨d₁, e₁, -⟩ := find_best_move_cached_correct state max_depth h₁
  obtain ⟨d₂, e₂, -⟩ := find_best_move_cached_correct state max_depth h₂
  rw [e₁, e₂]
  exact ⟨rfl, rfl⟩

/-- Witness for C10 at a concrete state, comparing the empty cache with a
nonempty valid cache. -/
theorem C10_witness :
    (find_best_move_cached ⟨[10, 6], [9], "PLAYER", false, 0⟩ 4 []).1
      = (find_best_move_cached ⟨[10, 6], [9], "PLAYER", false, 0⟩ 4
          [([9, 10], compute_dealer_probabilities [9, 10])]).1
    ∧ (find_best_move_cached ⟨[10, 6], [9], "PLAYER", false, 0⟩ 4 []).1
      = minimax.find_best_move ⟨[10, 6], [9], "PLAYER", false, 0⟩ 4 :=
  C10_cache_never_changes_answer ⟨[10, 6], [9], "PLAYER", false, 0⟩ 4 []
    [([9, 10], compute_dealer_probabilities [9, 10])]
    (fun e he => absurd he (List.not_mem_nil e))
    (fun e he => by rw [List.mem_singleton] at he; rw [he])
